import Mathlib

/-!
Verification of the in-process resource-coordination layer of pdf-docat's
python backend: the sliding-window rate limiter
(`app/services/rate_limiter.py`), the API-key credential pool
(`app/services/api_key_service.py`), the background task manager
(`app/services/background_processor.py`) and the two-tier cache
(`app/services/replit_cache.py`).

Modelling conventions, used throughout:
* `time.time()` / `datetime.utcnow()` instants are modelled as integers
  (`Int`, seconds).  Subtraction, ordering and the strict comparisons of
  the source are preserved exactly.  `datetime.isoformat` /
  `datetime.fromisoformat` are modelled as decimal rendering / parsing of
  the integer instant (both are injective order-preserving encodings).
* Python `dict`s are modelled as insertion-ordered association lists
  (`List (key × value)`): lookup takes the first (unique) binding, update
  rewrites the binding in place, fresh inserts append — exactly the
  observable behaviour of an insertion-ordered `dict`.
* `collections.deque` is a `List` (append at the right, `popleft` at the
  left).
* Raised-and-caught exceptions are modelled by an explicit event
  parameter where the source catches them (`try/except` around the whole
  body of `check_rate_limit`).
-/

set_option maxRecDepth 10000

namespace RateLimiterM

/-- Assoc-list lookup: Python `dict` access, first (unique) binding. -/
def lookupA (m : List (String × List Int)) (u : String) : Option (List Int) :=
  (m.find? (fun p => p.1 = u)).map (·.2)

/-- Assoc-list update in place (Python `dict` item assignment for an
existing key: the binding is rewritten without moving). -/
def updateA (m : List (String × List Int)) (u : String) (v : List Int) :
    List (String × List Int) :=
  m.map (fun p => if p.1 = u then (u, v) else p)

/-- State of `SimpleRateLimiter`: the per-identity request ledger
(`self.requests`) and `self._last_cleanup`.  The constants
`self._cleanup_interval = 300`, the one-hour inactivity cutoff `3600` and
`self.max_users_tracked = 10000` are inlined below as in the source. -/
structure RLState where
  requests : List (String × List Int)
  last_cleanup : Int
deriving DecidableEq, Repr

/-- `SimpleRateLimiter.__init__`: empty ledger; `_last_cleanup` is the
construction instant. -/
def initRL (t : Int) : RLState := ⟨[], t⟩

/-- `SimpleRateLimiter._cleanup_old_data`, translated clause for clause:
interval guard, per-user pruning of entries older than one hour, removal
of users whose deque emptied, and — above 10000 tracked users — retention
of only the 8000 most recently active users (dict deletion preserves the
insertion order of the survivors). -/
def cleanup_old_data (s : RLState) (now : Int) : RLState :=
  if now - s.last_cleanup < 300 then s
  else
    let cutoff := now - 3600
    let pruned := s.requests.map (fun p => (p.1, p.2.dropWhile (fun t => t < cutoff)))
    let kept := pruned.filter (fun p => ¬ p.2.isEmpty)
    let final :=
      if kept.length > 10000 then
        let sorted := kept.mergeSort
          (fun a b => (b.2.getLastD 0) ≤ (a.2.getLastD 0))
        let keepIds := (sorted.take 8000).map Prod.fst
        kept.filter (fun p => p.1 ∈ keepIds)
      else kept
    ⟨final, now⟩

/-- The record returned by `check_rate_limit`.  The normal path also
echoes `limit` and `window`; the fail-open path omits them and carries
`error` instead, so those three fields are `Option`-valued. -/
structure RLResult where
  allowed : Bool
  remaining : Nat
  reset_time : Int
  current_count : Nat
  rlimit : Option Nat
  window : Option Int
  error : Option String
deriving DecidableEq, Repr

/-- `SimpleRateLimiter.check_rate_limit`, body of the `try` block:
`defaultdict` access (inserting a fresh empty deque for an unseen
identity), window pruning from the left, the `current_count < limit`
admission test, immediate consumption of the admitted request, the
`remaining`/`reset_time` bookkeeping, and the trailing periodic cleanup. -/
def check_rate_limit (s : RLState) (u : String) (limit : Nat) (window : Int)
    (now : Int) : RLState × RLResult :=
  let window_start := now - window
  let reqs0 := if (lookupA s.requests u).isSome then s.requests
               else s.requests ++ [(u, [])]
  let seq := (lookupA reqs0 u).getD []
  let pruned := seq.dropWhile (fun t => t < window_start)
  let current_count := pruned.length
  let allowed := current_count < limit
  let seq' := if allowed then pruned ++ [now] else pruned
  let count' := if allowed then current_count + 1 else current_count
  let remaining := limit - count'
  let reset_time := window_start + window
  let s1 : RLState := ⟨updateA reqs0 u seq', s.last_cleanup⟩
  let s2 := cleanup_old_data s1 now
  (s2, ⟨allowed, remaining, reset_time, count', some limit, some window, none⟩)

/-- `SimpleRateLimiter.check_rate_limit` with the surrounding
`try/except`: a bookkeeping failure (the raised exception's message,
when one occurs, is the event `err`) takes the `except` branch, which
returns the fail-open record and leaves the state untouched. -/
def check_rate_limit_exc (s : RLState) (u : String) (limit : Nat)
    (window : Int) (now : Int) (err : Option String) : RLState × RLResult :=
  match err with
  | some e => (s, ⟨true, limit, now + window, 0, none, none, some e⟩)
  | none => check_rate_limit s u limit window now

/-- Run a sequence of checks for one identity with fixed limit and
window, one call per listed instant; returns the result records in call
order together with the final state. -/
def runChecks (s : RLState) (u : String) (limit : Nat) (window : Int) :
    List Int → RLState × List RLResult
  | [] => (s, [])
  | t :: ts =>
    let p := check_rate_limit s u limit window t
    let q := runChecks p.1 u limit window ts
    (q.1, p.2 :: q.2)

/-- Placeholder record used only as the default of `List.getD`. -/
def dummyR : RLResult := ⟨false, 0, 0, 0, none, none, none⟩

lemma dropWhile_lt_eq_self (l : List Int) (c : Int) (h : ∀ t ∈ l, c ≤ t) :
    l.dropWhile (fun t => t < c) = l := by
  cases l with
  | nil => rfl
  | cons a l =>
    have ha : ¬ (a < c) := not_lt.mpr (h a (List.mem_cons_self a l))
    simp [List.dropWhile_cons, ha]

lemma dropWhile_lt_eq_nil (l : List Int) (c : Int) (h : ∀ t ∈ l, t < c) :
    l.dropWhile (fun t => t < c) = [] := by
  induction l with
  | nil => rfl
  | cons a l ih =>
    rw [List.dropWhile_cons, if_pos (by simpa using h a (List.mem_cons_self a l))]
    exact ih (fun t ht => h t (List.mem_cons_of_mem a ht))

lemma lookupA_singleton (u : String) (l : List Int) :
    lookupA [(u, l)] u = some l := by
  simp [lookupA, List.find?]

lemma updateA_singleton (u : String) (l v : List Int) :
    updateA [(u, l)] u v = [(u, v)] := by
  simp [updateA]

/-- `_cleanup_old_data` on a single-identity ledger whose entries are all
within the last hour is at most a `_last_cleanup` refresh. -/
lemma cleanup_singleton (u : String) (l : List Int) (lc now : Int)
    (hne : l ≠ []) (h : ∀ t ∈ l, now - 3600 ≤ t) :
    ∃ lc2, cleanup_old_data ⟨[(u, l)], lc⟩ now = ⟨[(u, l)], lc2⟩ := by
  unfold cleanup_old_data
  by_cases hfire : now - lc < 300
  · exact ⟨lc, by simp [hfire]⟩
  · refine ⟨now, ?_⟩
    simp [hfire, dropWhile_lt_eq_self l (now - 3600) h, hne]

/-- One admitted `check_rate_limit` call on a single-identity ledger:
the instant is appended and the result reports the consumed count. -/
lemma check_allowed_step (u : String) (limit : Nat) (window now lc : Int)
    (prev : List Int)
    (hwin : ∀ t ∈ prev, now - window ≤ t)
    (hhr : ∀ t ∈ prev, now - 3600 ≤ t)
    (hcnt : prev.length < limit) :
    ∃ lc2, check_rate_limit ⟨[(u, prev)], lc⟩ u limit window now =
      (⟨[(u, prev ++ [now])], lc2⟩,
       ⟨true, limit - (prev.length + 1), now, prev.length + 1,
        some limit, some window, none⟩) := by
  have hne : prev ++ [now] ≠ [] := by simp
  have hh : ∀ t ∈ prev ++ [now], now - 3600 ≤ t := by
    intro t ht
    rcases List.mem_append.mp ht with h1 | h2
    · exact hhr t h1
    · simp at h2; omega
  obtain ⟨lc2, hcl⟩ := cleanup_singleton u (prev ++ [now]) lc now hne hh
  refine ⟨lc2, ?_⟩
  simp [check_rate_limit, lookupA_singleton,
    dropWhile_lt_eq_self prev (now - window) hwin, hcnt,
    updateA_singleton, hcl]

/-- One denied `check_rate_limit` call on a single-identity ledger whose
stored count meets the limit: nothing is appended and the state is
preserved up to a `_last_cleanup` refresh. -/
lemma check_denied_step (u : String) (limit : Nat) (window now lc : Int)
    (prev : List Int)
    (hwin : ∀ t ∈ prev, now - window ≤ t)
    (hhr : ∀ t ∈ prev, now - 3600 ≤ t)
    (hne : prev ≠ [])
    (hcnt : limit ≤ prev.length) :
    ∃ lc2, check_rate_limit ⟨[(u, prev)], lc⟩ u limit window now =
      (⟨[(u, prev)], lc2⟩,
       ⟨false, 0, now, prev.length, some limit, some window, none⟩) := by
  obtain ⟨lc2, hcl⟩ := cleanup_singleton u prev lc now hne hhr
  refine ⟨lc2, ?_⟩
  simp [check_rate_limit, lookupA_singleton,
    dropWhile_lt_eq_self prev (now - window) hwin, Nat.not_lt.mpr hcnt,
    updateA_singleton, hcl, Nat.sub_eq_zero_of_le hcnt]

/-- A `check_rate_limit` call issued strictly more than `window` after
every recorded request: the prune empties the history and the call is
admitted afresh. -/
lemma check_fresh_after_wait (u : String) (limit : Nat) (window now lc : Int)
    (prev : List Int)
    (hall : ∀ t ∈ prev, t < now - window)
    (hpos : 0 < limit) :
    ∃ lc2, check_rate_limit ⟨[(u, prev)], lc⟩ u limit window now =
      (⟨[(u, [now])], lc2⟩,
       ⟨true, limit - 1, now, 1, some limit, some window, none⟩) := by
  have hh : ∀ t ∈ ([now] : List Int), now - 3600 ≤ t := by
    intro t ht; simp at ht; omega
  obtain ⟨lc2, hcl⟩ := cleanup_singleton u [now] lc now (by simp) hh
  refine ⟨lc2, ?_⟩
  simp [check_rate_limit, lookupA_singleton,
    dropWhile_lt_eq_nil prev (now - window) hall, hpos,
    updateA_singleton, hcl]

/-- The `defaultdict` access: a check on an absent identity behaves as a
check on the identity freshly bound to an empty deque. -/
lemma check_rate_limit_emptyState (u : String) (limit : Nat)
    (window now lc : Int) :
    check_rate_limit ⟨[], lc⟩ u limit window now =
      check_rate_limit ⟨[(u, [])], lc⟩ u limit window now := by
  simp [check_rate_limit, lookupA]

lemma runChecks_empty_eq (u : String) (limit : Nat) (window lc : Int)
    (t : Int) (ts : List Int) :
    runChecks ⟨[], lc⟩ u limit window (t :: ts) =
      runChecks ⟨[(u, [])], lc⟩ u limit window (t :: ts) := by
  simp [runChecks, check_rate_limit_emptyState]

/-- Expected result records of a run of consecutively admitted calls,
starting from `base` already-consumed requests. -/
def expAllowed (limit : Nat) (window : Int) : Nat → List Int → List RLResult
  | _, [] => []
  | base, t :: ts =>
    ⟨true, limit - (base + 1), t, base + 1, some limit, some window, none⟩ ::
      expAllowed limit window (base + 1) ts

lemma expAllowed_length (limit : Nat) (window : Int) (base : Nat)
    (ts : List Int) : (expAllowed limit window base ts).length = ts.length := by
  induction ts generalizing base with
  | nil => rfl
  | cons t ts ih => simp [expAllowed, ih]

lemma expAllowed_getD (limit : Nat) (window : Int) (base i : Nat)
    (ts : List Int) (hi : i < ts.length) :
    (expAllowed limit window base ts).getD i dummyR =
      ⟨true, limit - (base + i + 1), ts.getD i 0, base + i + 1,
       some limit, some window, none⟩ := by
  induction ts generalizing base i with
  | nil => simp at hi
  | cons t ts ih =>
    cases i with
    | zero => simp [expAllowed]
    | succ j =>
      simp only [expAllowed, List.getD_cons_succ]
      have := ih (base + 1) j (by simpa using Nat.lt_of_succ_lt_succ hi)
      rw [this]
      congr 1 <;> omega

/-- Inductive core for C1: from a single-identity ledger holding `prev`,
a run of calls all of whose instants lie within `[t0, t0 + window]`
(with `window ≤ 3600` so that the periodic cleanup cannot touch
in-window entries) and which never reaches the limit is admitted
throughout, appending every instant. -/
lemma runChecks_allowed (u : String) (limit : Nat) (window t0 : Int)
    (hw : window ≤ 3600) (ts : List Int) :
    ∀ (prev : List Int) (lc : Int),
      (∀ t ∈ prev, t0 ≤ t) →
      (∀ t ∈ ts, t0 ≤ t ∧ t ≤ t0 + window) →
      prev.length + ts.length ≤ limit →
      ∃ lc2, runChecks ⟨[(u, prev)], lc⟩ u limit window ts =
        (⟨[(u, prev ++ ts)], lc2⟩, expAllowed limit window prev.length ts) := by
  induction ts with
  | nil => intro prev lc _ _ _; exact ⟨lc, by simp [runChecks, expAllowed]⟩
  | cons t ts ih =>
    intro prev lc hprev hts hlen
    obtain ⟨ht0, htw⟩ := hts t (List.mem_cons_self t ts)
    have hwin : ∀ x ∈ prev, t - window ≤ x := by
      intro x hx; have := hprev x hx; omega
    have hhr : ∀ x ∈ prev, t - 3600 ≤ x := by
      intro x hx; have := hprev x hx; omega
    have hcnt : prev.length < limit := by simp at hlen; omega
    obtain ⟨lc1, hstep⟩ := check_allowed_step u limit window t lc prev hwin hhr hcnt
    have hprev2 : ∀ x ∈ prev ++ [t], t0 ≤ x := by
      intro x hx
      rcases List.mem_append.mp hx with h1 | h2
      · exact hprev x h1
      · simp at h2; omega
    have hts2 : ∀ x ∈ ts, t0 ≤ x ∧ x ≤ t0 + window := fun x hx =>
      hts x (List.mem_cons_of_mem t hx)
    have hlen2 : (prev ++ [t]).length + ts.length ≤ limit := by
      simp at hlen ⊢; omega
    obtain ⟨lc2, hrest⟩ := ih (prev ++ [t]) lc1 hprev2 hts2 hlen2
    refine ⟨lc2, ?_⟩
    simp [runChecks, hstep, hrest, expAllowed]

lemma runChecks_append (s : RLState) (u : String) (limit : Nat) (window : Int)
    (xs ys : List Int) :
    runChecks s u limit window (xs ++ ys) =
      ((runChecks (runChecks s u limit window xs).1 u limit window ys).1,
       (runChecks s u limit window xs).2 ++
         (runChecks (runChecks s u limit window xs).1 u limit window ys).2) := by
  induction xs generalizing s with
  | nil => simp [runChecks]
  | cons x xs ih => simp [runChecks, ih]

end RateLimiterM

namespace RateLimiterM

/-- **C1, amended.** For a fresh limiter tracking a single identity:
with limit `L ≥ 1` and window `1 ≤ W ≤ 3600`, the first `L` calls at
instants within `[t0, t0+W]` are all admitted with `remaining`
decreasing `L-1, L-2, …, 0`, the `(L+1)`-th call still within the same
window is denied with `remaining = 0`, and a call issued *strictly more*
than `W` after every earlier request is admitted again.  (The original
claim's "waiting at least W" fails at exactly `W` because the prune keeps
timestamps with `t ≥ now - window`; windows above 3600 can also lose
in-window entries to the periodic one-hour cleanup.) -/
theorem C1_sliding_window_amended (u : String) (L : Nat)
    (window t0 lc0 td tr : Int) (ts : List Int)
    (hL : 1 ≤ L) (_hw1 : 1 ≤ window) (hw2 : window ≤ 3600)
    (hlen : ts.length = L)
    (hts : ∀ t ∈ ts, t0 ≤ t ∧ t ≤ t0 + window)
    (_htd1 : t0 ≤ td) (htd2 : td ≤ t0 + window)
    (htr : ∀ t ∈ ts, t + window < tr) :
    (runChecks (initRL lc0) u L window (ts ++ [td, tr])).2.length = L + 2 ∧
    (∀ i < L,
      ((runChecks (initRL lc0) u L window (ts ++ [td, tr])).2.getD i dummyR).allowed
          = true ∧
      ((runChecks (initRL lc0) u L window (ts ++ [td, tr])).2.getD i dummyR).remaining
          = L - 1 - i) ∧
    ((runChecks (initRL lc0) u L window (ts ++ [td, tr])).2.getD L dummyR).allowed
        = false ∧
    ((runChecks (initRL lc0) u L window (ts ++ [td, tr])).2.getD L dummyR).remaining
        = 0 ∧
    ((runChecks (initRL lc0) u L window (ts ++ [td, tr])).2.getD (L + 1) dummyR).allowed
        = true := by
  obtain ⟨t, ts0, rfl⟩ : ∃ t ts0, ts = t :: ts0 := by
    cases ts with
    | nil => simp at hlen; omega
    | cons t ts0 => exact ⟨t, ts0, rfl⟩
  have hempty : runChecks (initRL lc0) u L window ((t :: ts0) ++ [td, tr]) =
      runChecks ⟨[(u, [])], lc0⟩ u L window ((t :: ts0) ++ [td, tr]) := by
    simpa using runChecks_empty_eq u L window lc0 t (ts0 ++ [td, tr])
  obtain ⟨lc2, hrun⟩ := runChecks_allowed u L window t0 hw2 (t :: ts0) [] lc0
    (by simp) hts (by simp [hlen])
  have hd1 : ∀ x ∈ t :: ts0, td - window ≤ x := by
    intro x hx; have := (hts x hx).1; omega
  have hd2 : ∀ x ∈ t :: ts0, td - 3600 ≤ x := by
    intro x hx; have := (hts x hx).1; omega
  obtain ⟨lc3, hden⟩ := check_denied_step u L window td lc2 (t :: ts0) hd1 hd2
    (by simp) (le_of_eq hlen.symm)
  have hfr : ∀ x ∈ t :: ts0, x < tr - window := by
    intro x hx; have := htr x hx; omega
  obtain ⟨lc4, hfresh⟩ := check_fresh_after_wait u L window tr lc3 (t :: ts0) hfr
    (by omega)
  have hall : (runChecks (initRL lc0) u L window ((t :: ts0) ++ [td, tr])).2 =
      expAllowed L window 0 (t :: ts0) ++
        [⟨false, 0, td, (t :: ts0).length, some L, some window, none⟩,
         ⟨true, L - 1, tr, 1, some L, some window, none⟩] := by
    rw [hempty, runChecks_append, hrun]
    simp [runChecks, hden, hfresh]
  rw [hall]
  have hexplen : (expAllowed L window 0 (t :: ts0)).length = L := by
    rw [expAllowed_length]; exact hlen
  refine ⟨by simp [hexplen], ?_, ?_, ?_, ?_⟩
  · intro i hi
    rw [List.getD_append _ _ _ _ (by omega), expAllowed_getD L window 0 i _ (by omega)]
    refine ⟨rfl, ?_⟩
    show L - (0 + i + 1) = L - 1 - i
    omega
  · rw [List.getD_append_right _ _ _ _ (by omega)]
    simp [hexplen]
  · rw [List.getD_append_right _ _ _ _ (by omega)]
    simp [hexplen]
  · rw [List.getD_append_right _ _ _ _ (by omega)]
    simp [hexplen]

/-- **C1, counterexample to the claim as stated.**  Limit 1, window 10,
fresh identity: the request at `t = 0` is admitted; the request at
`t = 10` — issued after waiting exactly the window, i.e. "at least W" —
is still denied, because the prune keeps every timestamp `t ≥ now - W`. -/
theorem C1_cex_wait_exactly_window :
    ((runChecks (initRL 0) "u1" 1 10 [0, 10]).2.map (·.allowed)) = [true, false] := by
  decide

theorem C1_sliding_window_amended_w :
    (runChecks (initRL 0) "u1" 2 10 ([0, 1] ++ [5, 100])).2.length = 2 + 2 ∧
    (∀ i < 2,
      ((runChecks (initRL 0) "u1" 2 10 ([0, 1] ++ [5, 100])).2.getD i dummyR).allowed
          = true ∧
      ((runChecks (initRL 0) "u1" 2 10 ([0, 1] ++ [5, 100])).2.getD i dummyR).remaining
          = 2 - 1 - i) ∧
    ((runChecks (initRL 0) "u1" 2 10 ([0, 1] ++ [5, 100])).2.getD 2 dummyR).allowed
        = false ∧
    ((runChecks (initRL 0) "u1" 2 10 ([0, 1] ++ [5, 100])).2.getD 2 dummyR).remaining
        = 0 ∧
    ((runChecks (initRL 0) "u1" 2 10 ([0, 1] ++ [5, 100])).2.getD (2 + 1) dummyR).allowed
        = true :=
  C1_sliding_window_amended "u1" 2 10 0 0 5 100 [0, 1]
    (by decide) (by decide) (by decide) (by decide) (by decide)
    (by decide) (by decide) (by decide)

lemma updateA_not_mem (m : List (String × List Int)) (u : String)
    (v : List Int) (h : ∀ q ∈ m, q.1 ≠ u) : updateA m u v = m := by
  induction m with
  | nil => rfl
  | cons p m ih =>
    have hp : p.1 ≠ u := h p (List.mem_cons_self p m)
    simp only [updateA, List.map_cons, if_neg hp]
    have := ih (fun q hq => h q (List.mem_cons_of_mem p hq))
    simpa [updateA] using this

/-- Rewriting a binding with its own current value is a no-op on a
duplicate-free ledger. -/
lemma updateA_lookup_self (m : List (String × List Int)) (u : String)
    (seq : List Int) (hnd : (m.map Prod.fst).Nodup)
    (hfound : lookupA m u = some seq) : updateA m u seq = m := by
  induction m with
  | nil => simp [lookupA] at hfound
  | cons p m ih =>
    by_cases hp : p.1 = u
    · have hpv : p.2 = seq := by
        simp [lookupA, List.find?_cons, hp] at hfound
        rw [← hfound]
      have hrest : ∀ q ∈ m, q.1 ≠ u := by
        intro q hq hqu
        have : p.1 ∈ m.map Prod.fst := by
          rw [hp, ← hqu]; exact List.mem_map_of_mem Prod.fst hq
        exact (List.nodup_cons.mp hnd).1 this
      simp only [updateA, List.map_cons, if_pos hp]
      have h2 := updateA_not_mem m u seq hrest
      rw [updateA] at h2
      rw [h2, ← hp, ← hpv]
    · have hfound2 : lookupA m u = some seq := by
        simpa [lookupA, List.find?_cons, hp] using hfound
      have hnd2 : (m.map Prod.fst).Nodup := (List.nodup_cons.mp hnd).2
      simp only [updateA, List.map_cons, if_neg hp]
      have := ih hnd2 hfound2
      rw [updateA] at this
      rw [this]

/-- **C7, amended.** A denied check appends nothing; provided the
identity is already tracked, its stored count does not exceed the limit
(which holds whenever every call for this identity used the same limit),
the ledger keys are distinct (a `dict` invariant), and the periodic
cleanup is not due, a denied check leaves the limiter state entirely
unchanged.  (Without those provisos a denied check may still shrink the
ledger: see the counterexample.) -/
theorem C7_denied_check_preserves_state (s : RLState) (u : String)
    (limit : Nat) (window now : Int) (seq : List Int)
    (hnd : (s.requests.map Prod.fst).Nodup)
    (hfound : lookupA s.requests u = some seq)
    (hlen : seq.length ≤ limit)
    (hcl : now - s.last_cleanup < 300)
    (hdenied : (check_rate_limit s u limit window now).2.allowed = false) :
    (check_rate_limit s u limit window now).1 = s := by
  have hsome : (lookupA s.requests u).isSome = true := by rw [hfound]; rfl
  have hple : (seq.dropWhile (fun t => t < now - window)).length ≤ seq.length :=
    (List.dropWhile_sublist _).length_le
  by_cases hlt : (seq.dropWhile (fun t => t < now - window)).length < limit
  · exfalso
    rw [check_rate_limit] at hdenied
    simp [hsome, hfound, hlt] at hdenied
  · have hpeq : seq.dropWhile (fun t => t < now - window) = seq :=
      (List.dropWhile_sublist _).eq_of_length (by omega)
    have hlt2 : ¬ (seq.length < limit) := by rw [hpeq] at hlt; exact hlt
    rw [check_rate_limit]
    simp [hfound, hpeq, hlt2]
    rw [updateA_lookup_self s.requests u seq hnd hfound]
    simp [cleanup_old_data, hcl]

theorem C7_denied_check_preserves_state_w :
    (check_rate_limit ⟨[("u", [0, 1])], 0⟩ "u" 2 10 10).2.allowed = false ∧
    (check_rate_limit ⟨[("u", [0, 1])], 0⟩ "u" 2 10 10).1 =
      (⟨[("u", [0, 1])], 0⟩ : RLState) :=
  have hd : (check_rate_limit ⟨[("u", [0, 1])], 0⟩ "u" 2 10 10).2.allowed = false :=
    by decide
  ⟨hd, C7_denied_check_preserves_state ⟨[("u", [0, 1])], 0⟩ "u" 2 10 10 [0, 1]
    (by decide) (by decide) (by decide) (by decide) hd⟩

/-- **C7, counterexample to the claim as stated.**  Two requests are
admitted under limit 2, window 10 (ledger `[0, 1]`); a later check with
limit 1 at `t = 11` is denied, yet the very same denied call prunes the
expired timestamp 0 from the identity's stored sequence: the ledger is
mutated by a denied check. -/
theorem C7_cex_denied_check_mutates :
    (check_rate_limit ⟨[("u", [0, 1])], 0⟩ "u" 1 10 11).2.allowed = false ∧
    (check_rate_limit ⟨[("u", [0, 1])], 0⟩ "u" 1 10 11).1.requests =
      [("u", [1])] := by
  decide

/-- **C8.** If the bookkeeping raises during `check_rate_limit`, the
`except` branch still returns a record (never propagates), with
`allowed = true` and the error surfaced separately in the `error`
field, leaving the limiter state untouched: the limiter fails open. -/
theorem C8_fail_open_on_error (s : RLState) (u : String) (limit : Nat)
    (window now : Int) (e : String) :
    (check_rate_limit_exc s u limit window now (some e)).2.allowed = true ∧
    (check_rate_limit_exc s u limit window now (some e)).2.error = some e ∧
    (check_rate_limit_exc s u limit window now (some e)).1 = s :=
  ⟨rfl, rfl, rfl⟩

end RateLimiterM

/-! ## Credential pool (`app/services/api_key_service.py`, `ApiKeyPool`) -/

namespace ApiKeyPoolM

/-- `self.usage_counts : Dict[str, List[float]]` as an insertion-ordered
association list. -/
abbrev Usage := List (String × List Int)

/-- `self.usage_counts[key]` (read). -/
def lookupU (m : Usage) (k : String) : List Int :=
  ((m.find? (fun p => p.1 = k)).map (·.2)).getD []

/-- `self.usage_counts[key].append(now)` for a key already bound. -/
def appendU (m : Usage) (k : String) (now : Int) : Usage :=
  m.map (fun p => if p.1 = k then (p.1, p.2 ++ [now]) else p)

/-- State of `ApiKeyPool`. -/
structure Pool where
  service_name : String
  keys : List String
  rate_limit_per_minute : Nat
  usage_counts : Usage
  last_used_index : Int
deriving DecidableEq, Repr

/-- `ApiKeyPool.__init__` (the dict comprehension
`{key: [] for key in keys}`; for distinct keys this is one empty binding
per key, in key order). -/
def mkPool (name : String) (keys : List String) (limit : Nat) : Pool :=
  ⟨name, keys, limit, keys.map (fun k => (k, [])), -1⟩

/-- The prune at the top of `get_key`: for every pooled key, keep only
usage timestamps strictly newer than `one_minute_ago`. -/
def pruneU (keys : List String) (m : Usage) (cutoff : Int) : Usage :=
  m.map (fun p =>
    if p.1 ∈ keys then (p.1, p.2.filter (fun t => cutoff < t)) else p)

/-- The round-robin scan (`for _ in range(len(self.keys))`): advance the
cursor, accept the first candidate under budget (recording the usage),
otherwise exhaust the fuel.  Returns the acceptance, if any, together
with the cursor after the last advance. -/
def scanU (keys : List String) (limit : Nat) (now : Int) :
    Usage → Int → Nat → Option (String × Usage) × Int
  | _, idx, 0 => (none, idx)
  | m, idx, fuel + 1 =>
    let idx1 := (idx + 1) % (keys.length : Int)
    let key := keys.getD idx1.toNat ""
    if (lookupU m key).length < limit then
      (some (key, appendU m key now), idx1)
    else
      scanU keys limit now m idx1 fuel

/-- `min(timestamps) if timestamps else float('inf')`, with `none`
playing infinity. -/
def minTs (ts : List Int) : Option Int :=
  ts.foldl (fun acc t =>
    match acc with
    | none => some t
    | some a => some (min a t)) none

/-- Strict comparison with `none` as `float('inf')`. -/
def ltInf : Option Int → Option Int → Bool
  | none, _ => false
  | some _, none => true
  | some a, some b => a < b

/-- `min(oldest_timestamps, key=oldest_timestamps.get)`: the first key of
the mapping, in insertion order, whose value is strictly minimal. -/
def argminOldest : Usage → String
  | [] => ""
  | (k, ts) :: rest =>
    (rest.foldl (fun best p =>
      if ltInf (minTs p.2) best.2 then (p.1, minTs p.2) else best)
      (k, minTs ts)).1

/-- `ApiKeyPool.get_key`.  An empty pool raises in Python
(`% 0` is a `ZeroDivisionError`), modelled as `none`; a non-empty pool
always returns a key. -/
def get_key (p : Pool) (now : Int) : Option (String × Pool) :=
  if p.keys.isEmpty then none
  else
    let one_minute_ago := now - 60
    let usage1 := pruneU p.keys p.usage_counts one_minute_ago
    match scanU p.keys p.rate_limit_per_minute now usage1 p.last_used_index
        p.keys.length with
    | (some (key, usage2), idx) =>
      some (key, { p with usage_counts := usage2, last_used_index := idx })
    | (none, idx) =>
      let key := argminOldest usage1
      some (key, { p with usage_counts := appendU usage1 key now,
                          last_used_index := idx })

/-- Sequential acquisitions, one per listed instant. -/
def runGetKeys (p : Pool) : List Int → List (Option String) × Pool
  | [] => ([], p)
  | t :: ts =>
    let r := get_key p t
    let p1 := (r.map (·.2)).getD p
    let rest := runGetKeys p1 ts
    ((r.map (·.1)) :: rest.1, rest.2)

/-- Per-key statistics reported by `get_usage_stats`.
`rate_limit_percent` is `(recent / limit) * 100` (exact rational here;
Python uses float division, and raises on a zero limit). -/
structure KeyStats where
  requests_last_minute : Nat
  rate_limit_percent : ℚ
deriving DecidableEq, Repr

/-- The masking expression of `get_usage_stats`:
`f"{key[:4]}...{key[-4:]}" if len(key) > 8 else "***"`. -/
def maskKey (key : String) : String :=
  if key.length > 8 then key.take 4 ++ "..." ++ key.drop (key.length - 4)
  else "***"

/-- `stats[masked_key] = ...`: dict insert-or-overwrite. -/
def setStat (m : List (String × KeyStats)) (k : String) (v : KeyStats) :
    List (String × KeyStats) :=
  if (m.find? (fun p => p.1 = k)).isSome
  then m.map (fun p => if p.1 = k then (k, v) else p)
  else m ++ [(k, v)]

/-- `ApiKeyPool.get_usage_stats`: one entry per pooled key, reported
under the masked identity, counting in-window usages. -/
def get_usage_stats (p : Pool) (now : Int) : List (String × KeyStats) :=
  p.keys.foldl (fun stats key =>
    let recent := ((lookupU p.usage_counts key).filter
      (fun t => now - 60 < t)).length
    setStat stats (maskKey key)
      ⟨recent, (recent : ℚ) / (p.rate_limit_per_minute : ℚ) * 100⟩) []

lemma setStat_self (m : List (String × KeyStats)) (k : String) (v : KeyStats) :
    ∃ w, (k, w) ∈ setStat m k v := by
  unfold setStat
  by_cases h : (m.find? (fun p => p.1 = k)).isSome = true
  · rw [if_pos h]
    obtain ⟨p, hp, hpk⟩ := List.find?_isSome.mp h
    refine ⟨v, List.mem_map.mpr ⟨p, hp, ?_⟩⟩
    simp at hpk; simp [hpk]
  · rw [if_neg h]
    exact ⟨v, by simp⟩

lemma setStat_presName (m : List (String × KeyStats)) (k : String)
    (v : KeyStats) (n : String) (h : ∃ w, (n, w) ∈ m) :
    ∃ w, (n, w) ∈ setStat m k v := by
  obtain ⟨w, hw⟩ := h
  unfold setStat
  by_cases hf : (m.find? (fun p => p.1 = k)).isSome = true
  · rw [if_pos hf]
    by_cases hnk : n = k
    · subst hnk
      refine ⟨v, List.mem_map.mpr ⟨(n, w), hw, by simp⟩⟩
    · refine ⟨w, List.mem_map.mpr ⟨(n, w), hw, by simp [hnk]⟩⟩
  · rw [if_neg hf]
    exact ⟨w, List.mem_append_left _ hw⟩

lemma setStat_names (m : List (String × KeyStats)) (k : String)
    (v : KeyStats) : ∀ e ∈ setStat m k v, e.1 = k ∨ ∃ q ∈ m, e.1 = q.1 := by
  intro e he
  unfold setStat at he
  by_cases hf : (m.find? (fun p => p.1 = k)).isSome = true
  · rw [if_pos hf] at he
    obtain ⟨q, hq, hqe⟩ := List.mem_map.mp he
    by_cases hqk : q.1 = k
    · left; rw [← hqe]; simp [hqk]
    · right; exact ⟨q, hq, by rw [← hqe]; simp [hqk]⟩
  · rw [if_neg hf] at he
    rcases List.mem_append.mp he with h1 | h2
    · right; exact ⟨e, h1, rfl⟩
    · left; simp at h2; rw [h2]

lemma statsFold_presName (p : Pool) (now : Int) (ks : List String)
    (acc : List (String × KeyStats)) (n : String)
    (h : ∃ w, (n, w) ∈ acc) :
    ∃ w, (n, w) ∈ ks.foldl (fun stats key =>
      let recent := ((lookupU p.usage_counts key).filter
        (fun t => now - 60 < t)).length
      setStat stats (maskKey key)
        ⟨recent, (recent : ℚ) / (p.rate_limit_per_minute : ℚ) * 100⟩) acc := by
  induction ks generalizing acc with
  | nil => exact h
  | cons k ks ih =>
    exact ih _ (setStat_presName _ _ _ _ h)

lemma statsFold_mem (p : Pool) (now : Int) (ks : List String)
    (acc : List (String × KeyStats)) (key : String) (hk : key ∈ ks) :
    ∃ w, (maskKey key, w) ∈ ks.foldl (fun stats key =>
      let recent := ((lookupU p.usage_counts key).filter
        (fun t => now - 60 < t)).length
      setStat stats (maskKey key)
        ⟨recent, (recent : ℚ) / (p.rate_limit_per_minute : ℚ) * 100⟩) acc := by
  induction ks generalizing acc with
  | nil => simp at hk
  | cons k ks ih =>
    rcases List.mem_cons.mp hk with h1 | h2
    · subst h1
      exact statsFold_presName p now ks _ _ (setStat_self _ _ _)
    · exact ih _ h2

lemma statsFold_names (p : Pool) (now : Int) (ks : List String)
    (acc : List (String × KeyStats)) :
    ∀ e ∈ ks.foldl (fun stats key =>
      let recent := ((lookupU p.usage_counts key).filter
        (fun t => now - 60 < t)).length
      setStat stats (maskKey key)
        ⟨recent, (recent : ℚ) / (p.rate_limit_per_minute : ℚ) * 100⟩) acc,
      (∃ q ∈ acc, e.1 = q.1) ∨ ∃ k ∈ ks, e.1 = maskKey k := by
  induction ks generalizing acc with
  | nil => intro e he; exact Or.inl ⟨e, he, rfl⟩
  | cons k ks ih =>
    intro e he
    rcases ih _ e he with ⟨q, hq, hqe⟩ | ⟨k2, hk2, hke⟩
    · rcases setStat_names _ _ _ q hq with h1 | ⟨q2, hq2, hq2e⟩
      · exact Or.inr ⟨k, List.mem_cons_self k ks, hqe.trans h1⟩
      · exact Or.inl ⟨q2, hq2, hqe.trans hq2e⟩
    · exact Or.inr ⟨k2, List.mem_cons_of_mem k hk2, hke⟩

/-- **C9, amended.** Every identity reported by `get_usage_stats` is the
masked form of some pooled credential; a credential of length at most 8
is reported as `"***"` and a longer one as its 4-character head, a
literal `"..."`, and its 4-character tail; and — unless the credential is
itself of masked shape (the literal `"***"`, or already equal to its own
masked form) — its reporting identity differs from the full credential.
(The original claim's unconditional "never equal to the full credential"
fails for such degenerate credentials: see the counterexample.) -/
theorem C9_usage_stats_masking (p : Pool) (now : Int) (key : String)
    (hk : key ∈ p.keys)
    (hshape : ¬ (key = "***" ∨
      key = key.take 4 ++ "..." ++ key.drop (key.length - 4))) :
    (∃ st, (maskKey key, st) ∈ get_usage_stats p now) ∧
    (key.length ≤ 8 → maskKey key = "***") ∧
    (8 < key.length →
      maskKey key = key.take 4 ++ "..." ++ key.drop (key.length - 4)) ∧
    maskKey key ≠ key ∧
    (∀ e ∈ get_usage_stats p now, ∃ k ∈ p.keys, e.1 = maskKey k) := by
  push_neg at hshape
  obtain ⟨hs1, hs2⟩ := hshape
  refine ⟨statsFold_mem p now p.keys [] key hk, ?_, ?_, ?_, ?_⟩
  · intro h8; simp [maskKey, Nat.not_lt.mpr h8]
  · intro h8; simp [maskKey, h8]
  · by_cases h8 : 8 < key.length
    · rw [maskKey, if_pos h8]
      exact fun h => hs2 h.symm
    · rw [maskKey, if_neg h8]
      exact fun h => hs1 h.symm
  · intro e he
    rcases statsFold_names p now p.keys [] e he with ⟨q, hq, _⟩ | h
    · simp at hq
    · exact h

theorem C9_usage_stats_masking_w :
    (∃ st, (maskKey "k1234567890", st) ∈
      get_usage_stats (mkPool "svc" ["k1234567890", "ab"] 60) 0) ∧
    ("k1234567890".length ≤ 8 → maskKey "k1234567890" = "***") ∧
    (8 < "k1234567890".length →
      maskKey "k1234567890" = "k1234567890".take 4 ++ "..." ++
        "k1234567890".drop ("k1234567890".length - 4)) ∧
    maskKey "k1234567890" ≠ "k1234567890" ∧
    (∀ e ∈ get_usage_stats (mkPool "svc" ["k1234567890", "ab"] 60) 0,
      ∃ k ∈ (mkPool "svc" ["k1234567890", "ab"] 60).keys, e.1 = maskKey k) :=
  C9_usage_stats_masking (mkPool "svc" ["k1234567890", "ab"] 60) 0
    "k1234567890" (by decide) (by decide)

/-- **C9, counterexample to the claim as stated.**  For the credential
`"***"` (length 3, so reported as the fixed string `"***"`), the identity
under which `get_usage_stats` reports its statistics is equal to the full
credential. -/
theorem C9_cex_masked_identity_equals_credential :
    (get_usage_stats (mkPool "svc" ["***"] 60) 0).map Prod.fst = ["***"] := by
  decide

lemma ltInf_irrefl (x : Option Int) : ltInf x x = false := by
  cases x <;> simp [ltInf]

lemma ltInf_false_trans (x y z : Option Int) (h1 : ltInf x y = false)
    (h2 : ltInf y z = false) : ltInf x z = false := by
  cases x <;> cases y <;> cases z <;> simp_all [ltInf] <;> omega

lemma ltInf_false_of_true_of_false (x y z : Option Int)
    (h1 : ltInf x y = true) (h2 : ltInf x z = false) : ltInf y z = false := by
  cases x <;> cases y <;> cases z <;> simp_all [ltInf] <;> omega

lemma argmin_fold (rest : Usage) : ∀ (b : String × Option Int),
    (rest.foldl (fun best p =>
        if ltInf (minTs p.2) best.2 then (p.1, minTs p.2) else best) b = b ∨
      ∃ p ∈ rest, rest.foldl (fun best p =>
        if ltInf (minTs p.2) best.2 then (p.1, minTs p.2) else best) b =
          (p.1, minTs p.2)) ∧
    ltInf b.2 (rest.foldl (fun best p =>
      if ltInf (minTs p.2) best.2 then (p.1, minTs p.2) else best) b).2 = false ∧
    ∀ p ∈ rest, ltInf (minTs p.2) (rest.foldl (fun best p =>
      if ltInf (minTs p.2) best.2 then (p.1, minTs p.2) else best) b).2 = false := by
  induction rest with
  | nil => exact fun b => ⟨Or.inl rfl, ltInf_irrefl b.2, by simp⟩
  | cons p rest ih =>
    intro b
    by_cases hlt : ltInf (minTs p.2) b.2 = true
    · have hstep : (p :: rest).foldl (fun best p =>
          if ltInf (minTs p.2) best.2 then (p.1, minTs p.2) else best) b =
          rest.foldl (fun best p =>
            if ltInf (minTs p.2) best.2 then (p.1, minTs p.2) else best)
            (p.1, minTs p.2) := by
        simp [List.foldl_cons, hlt]
      obtain ⟨ho, hb, hall⟩ := ih (p.1, minTs p.2)
      rw [hstep]
      refine ⟨?_, ?_, ?_⟩
      · rcases ho with h | ⟨q, hq, hfq⟩
        · exact Or.inr ⟨p, List.mem_cons_self p rest, h⟩
        · exact Or.inr ⟨q, List.mem_cons_of_mem p hq, hfq⟩
      · exact ltInf_false_of_true_of_false (minTs p.2) b.2 _ hlt hb
      · intro q hq
        rcases List.mem_cons.mp hq with h | h
        · rw [h]; exact hb
        · exact hall q h
    · have hlt2 : ltInf (minTs p.2) b.2 = false := by
        revert hlt; cases ltInf (minTs p.2) b.2 <;> simp
      have hstep : (p :: rest).foldl (fun best p =>
          if ltInf (minTs p.2) best.2 then (p.1, minTs p.2) else best) b =
          rest.foldl (fun best p =>
            if ltInf (minTs p.2) best.2 then (p.1, minTs p.2) else best) b := by
        simp [List.foldl_cons, hlt2]
      obtain ⟨ho, hb, hall⟩ := ih b
      rw [hstep]
      refine ⟨?_, hb, ?_⟩
      · rcases ho with h | ⟨q, hq, hfq⟩
        · exact Or.inl h
        · exact Or.inr ⟨q, List.mem_cons_of_mem p hq, hfq⟩
      · intro q hq
        rcases List.mem_cons.mp hq with h | h
        · rw [h]; exact ltInf_false_trans _ _ _ hlt2 hb
        · exact hall q h

/-- `argminOldest` picks a member whose oldest in-window timestamp is
minimal (first such member in mapping order). -/
lemma argminOldest_spec (m : Usage) (hne : m ≠ []) :
    ∃ q ∈ m, argminOldest m = q.1 ∧
      ∀ r ∈ m, ltInf (minTs r.2) (minTs q.2) = false := by
  match m with
  | [] => exact absurd rfl hne
  | (k, ts) :: rest =>
    obtain ⟨ho, hb, hall⟩ := argmin_fold rest (k, minTs ts)
    rcases ho with h | ⟨p, hp, hfp⟩
    · refine ⟨(k, ts), List.mem_cons_self _ _, ?_, ?_⟩
      · rw [argminOldest, h]
      · intro r hr
        rcases List.mem_cons.mp hr with h1 | h1
        · rw [h1]; exact ltInf_irrefl _
        · have := hall r h1
          rw [h] at this
          exact this
    · refine ⟨p, List.mem_cons_of_mem _ hp, ?_, ?_⟩
      · rw [argminOldest, hfp]
      · intro r hr
        rcases List.mem_cons.mp hr with h1 | h1
        · rw [h1]
          have := hb
          rw [hfp] at this
          exact this
        · have := hall r h1
          rw [hfp] at this
          exact this

lemma lookupU_mem (m : Usage) (k : String) (hk : k ∈ m.map Prod.fst) :
    ∃ q ∈ m, q.1 = k ∧ lookupU m k = q.2 := by
  induction m with
  | nil => simp at hk
  | cons q m ih =>
    by_cases hq : q.1 = k
    · exact ⟨q, List.mem_cons_self q m, hq,
        by simp [lookupU, List.find?_cons, hq]⟩
    · have hk2 : k ∈ m.map Prod.fst := by
        simp at hk
        rcases hk with h | h
        · exact absurd h.symm hq
        · simpa using h
      obtain ⟨r, hr, hr1, hr2⟩ := ih hk2
      refine ⟨r, List.mem_cons_of_mem q hr, hr1, ?_⟩
      rw [← hr2]
      simp [lookupU, List.find?_cons, hq]

lemma pruneU_names (keys : List String) (m : Usage) (c : Int) :
    (pruneU keys m c).map Prod.fst = m.map Prod.fst := by
  induction m with
  | nil => rfl
  | cons q m ih =>
    simp only [pruneU, List.map_cons] at ih ⊢
    by_cases hq : q.1 ∈ keys
    · simp [hq, ih]
    · simp [hq, ih]

/-- If every pooled key is at-or-over budget, the rotation exhausts its
fuel and accepts nobody. -/
lemma scanU_none (keys : List String) (limit : Nat) (now : Int) (m : Usage)
    (hk : keys ≠ [])
    (hcount : ∀ j, j < keys.length →
      limit ≤ (lookupU m (keys.getD j "")).length) :
    ∀ (fuel : Nat) (idx : Int),
      ∃ idx2, scanU keys limit now m idx fuel = (none, idx2) := by
  intro fuel
  induction fuel with
  | zero => exact fun idx => ⟨idx, rfl⟩
  | succ n ih =>
    intro idx
    have hN : 0 < keys.length := List.length_pos.mpr hk
    have hNz : ((keys.length : Int)) ≠ 0 := by exact_mod_cast hN.ne'
    have h0 : 0 ≤ (idx + 1) % (keys.length : Int) := Int.emod_nonneg _ hNz
    have h1 : (idx + 1) % (keys.length : Int) < (keys.length : Int) :=
      Int.emod_lt_of_pos _ (by exact_mod_cast hN)
    have h2 : ((idx + 1) % (keys.length : Int)).toNat < keys.length := by omega
    have hc := hcount _ h2
    obtain ⟨idx2, hrec⟩ := ih ((idx + 1) % (keys.length : Int))
    refine ⟨idx2, ?_⟩
    rw [scanU]
    simp only [Nat.not_lt.mpr hc, if_false]
    exact hrec

/-- **C4.** On a non-empty pool in which, at the moment of the call,
every credential's pruned one-minute usage count is at or above the
per-minute budget, `get_key` still returns (no exception, no blocking):
it selects a credential whose oldest in-window usage timestamp is
minimal (the first such, in pool order) and appends the new usage
timestamp to exactly that credential's history.  `hdom` is the
representation invariant that `usage_counts` has one binding per pooled
key, in pool order (as established by `__init__`). -/
theorem C4_saturated_pool_returns_oldest (p : Pool) (now : Int)
    (hne : p.keys ≠ [])
    (hdom : p.usage_counts.map Prod.fst = p.keys)
    (hsat : ∀ q ∈ p.usage_counts,
      p.rate_limit_per_minute ≤ (q.2.filter (fun t => now - 60 < t)).length) :
    ∃ q ∈ pruneU p.keys p.usage_counts (now - 60), ∃ idx : Int,
      get_key p now = some (q.1,
        ⟨p.service_name, p.keys, p.rate_limit_per_minute,
         appendU (pruneU p.keys p.usage_counts (now - 60)) q.1 now, idx⟩) ∧
      q.1 ∈ p.keys ∧
      ∀ r ∈ pruneU p.keys p.usage_counts (now - 60),
        ltInf (minTs r.2) (minTs q.2) = false := by
  have hnames : (pruneU p.keys p.usage_counts (now - 60)).map Prod.fst = p.keys := by
    rw [pruneU_names, hdom]
  have hcnt : ∀ q ∈ pruneU p.keys p.usage_counts (now - 60),
      p.rate_limit_per_minute ≤ q.2.length := by
    intro q hq
    obtain ⟨q0, hq0, hfq⟩ := List.mem_map.mp hq
    have hq0k : q0.1 ∈ p.keys := by
      rw [← hdom]; exact List.mem_map_of_mem Prod.fst hq0
    rw [if_pos hq0k] at hfq
    rw [← hfq]
    exact hsat q0 hq0
  have hlook : ∀ j, j < p.keys.length → p.rate_limit_per_minute ≤
      (lookupU (pruneU p.keys p.usage_counts (now - 60)) (p.keys.getD j "")).length := by
    intro j hj
    have hmem : p.keys.getD j "" ∈
        (pruneU p.keys p.usage_counts (now - 60)).map Prod.fst := by
      rw [hnames, List.getD_eq_getElem _ _ hj]
      exact List.getElem_mem hj
    obtain ⟨q, hq, _, hql⟩ := lookupU_mem _ _ hmem
    rw [hql]; exact hcnt q hq
  obtain ⟨idx2, hscan⟩ := scanU_none p.keys p.rate_limit_per_minute now
    (pruneU p.keys p.usage_counts (now - 60)) hne hlook p.keys.length
    p.last_used_index
  have hmne : pruneU p.keys p.usage_counts (now - 60) ≠ [] := by
    intro h
    rw [h] at hnames
    exact hne hnames.symm
  obtain ⟨q, hq, hargq, hmin⟩ := argminOldest_spec _ hmne
  refine ⟨q, hq, idx2, ?_, ?_, hmin⟩
  · rw [get_key, if_neg (by simp [hne])]
    simp only [hscan, hargq]
  · rw [← hnames]
    exact List.mem_map_of_mem Prod.fst hq

theorem C4_saturated_pool_returns_oldest_w :
    ∃ q ∈ pruneU ["a", "b"] [("a", [5]), ("b", [3])] (10 - 60), ∃ idx : Int,
      get_key (⟨"svc", ["a", "b"], 1, [("a", [5]), ("b", [3])], -1⟩ : Pool) 10 =
        some (q.1,
          ⟨"svc", ["a", "b"], 1,
           appendU (pruneU ["a", "b"] [("a", [5]), ("b", [3])] (10 - 60)) q.1 10,
           idx⟩) ∧
      q.1 ∈ ["a", "b"] ∧
      ∀ r ∈ pruneU ["a", "b"] [("a", [5]), ("b", [3])] (10 - 60),
        ltInf (minTs r.2) (minTs q.2) = false :=
  C4_saturated_pool_returns_oldest
    (⟨"svc", ["a", "b"], 1, [("a", [5]), ("b", [3])], -1⟩ : Pool) 10
    (by decide) (by decide) (by decide)

/-! Round-robin characterization of `get_key` under budget (claim C3):
while fewer than `N × B` acquisitions have happened within one minute,
the pool state after `k` calls is the explicit pure-rotation state
`rrPool … k` and call `k` selects key `k % N`. -/

/-- Timestamps recorded for the key at position `j` after the first
`k` calls of a pure round-robin run with call instants `ts`. -/
def rrTimes (N : Nat) (ts : List Int) (j k : Nat) : List Int :=
  ((List.range k).filter (fun i => i % N = j)).map (fun i => ts.getD i 0)

/-- Usage bindings for the keys from position `j0` on. -/
def rrUsageAux (N : Nat) (ts : List Int) (k : Nat) : Nat → List String → Usage
  | _, [] => []
  | j0, key :: rest => (key, rrTimes N ts j0 k) :: rrUsageAux N ts k (j0 + 1) rest

/-- Usage map after `k` pure-rotation calls. -/
def rrUsage (keys : List String) (ts : List Int) (k : Nat) : Usage :=
  rrUsageAux keys.length ts k 0 keys

/-- Cursor after `k` pure-rotation calls (`-1` initially). -/
def rrCursor (N k : Nat) : Int := if k = 0 then -1 else ((k - 1) % N : Nat)

/-- Pool state after `k` pure-rotation calls. -/
def rrPool (name : String) (keys : List String) (B : Nat) (ts : List Int)
    (k : Nat) : Pool :=
  ⟨name, keys, B, rrUsage keys ts k, rrCursor keys.length k⟩

lemma rrTimes_zero (N : Nat) (ts : List Int) (j : Nat) :
    rrTimes N ts j 0 = [] := rfl

lemma rrUsageAux_zero (N : Nat) (ts : List Int) :
    ∀ (keys : List String) (j0 : Nat),
      rrUsageAux N ts 0 j0 keys = keys.map (fun key => (key, [])) := by
  intro keys
  induction keys with
  | nil => intro j0; rfl
  | cons key rest ih =>
    intro j0
    rw [rrUsageAux, rrTimes_zero, ih (j0 + 1), List.map_cons]

lemma rrPool_zero (name : String) (keys : List String) (B : Nat)
    (ts : List Int) : rrPool name keys B ts 0 = mkPool name keys B := by
  rw [rrPool, mkPool, rrUsage, rrUsageAux_zero, rrCursor]
  simp

/-- Appending index `k` to the rotation: the key at position `k % N`
gains the instant `ts.getD k 0`, everyone else is unchanged. -/
lemma rrTimes_succ (N : Nat) (ts : List Int) (j k : Nat) :
    rrTimes N ts j (k + 1) =
      if k % N = j then rrTimes N ts j k ++ [ts.getD k 0]
      else rrTimes N ts j k := by
  unfold rrTimes
  rw [List.range_succ, List.filter_append, List.map_append]
  by_cases h : k % N = j
  · simp [h]
  · simp [h]

lemma lookupU_cons_ne (q : String × List Int) (m : Usage) (tgt : String)
    (h : q.1 ≠ tgt) : lookupU (q :: m) tgt = lookupU m tgt := by
  simp [lookupU, List.find?_cons, h]

lemma lookupU_rrUsageAux (N : Nat) (ts : List Int) (k : Nat) :
    ∀ (keys : List String) (j0 j : Nat), keys.Nodup → j < keys.length →
      lookupU (rrUsageAux N ts k j0 keys) (keys.getD j "") =
        rrTimes N ts (j0 + j) k := by
  intro keys
  induction keys with
  | nil => intro j0 j _ hj; simp at hj
  | cons key rest ih =>
    intro j0 j hnd hj
    cases j with
    | zero =>
      simp only [List.getD_cons_zero, rrUsageAux, Nat.add_zero]
      simp [lookupU, List.find?_cons]
    | succ i =>
      have hkey : key ≠ rest.getD i "" := by
        intro h
        have hmem : rest.getD i "" ∈ rest := by
          rw [List.getD_eq_getElem _ _ (by simpa using Nat.lt_of_succ_lt_succ hj)]
          exact List.getElem_mem _
        rw [← h] at hmem
        exact (List.nodup_cons.mp hnd).1 hmem
      simp only [List.getD_cons_succ, rrUsageAux]
      rw [lookupU_cons_ne _ _ _ hkey,
        ih (j0 + 1) i (List.nodup_cons.mp hnd).2
        (by simpa using Nat.lt_of_succ_lt_succ hj)]
      congr 1
      omega

lemma appendU_rrUsageAux (N : Nat) (ts : List Int) (k m : Nat)
    (tgt : String) (hres : m = k % N) :
    ∀ (keys : List String) (j0 : Nat),
      (∀ i, i < keys.length → (keys.getD i "" = tgt ↔ j0 + i = m)) →
      appendU (rrUsageAux N ts k j0 keys) tgt (ts.getD k 0) =
        rrUsageAux N ts (k + 1) j0 keys := by
  intro keys
  induction keys with
  | nil => intro j0 _; rfl
  | cons key rest ih =>
    intro j0 hiff
    have hhead := hiff 0 (by simp)
    simp only [List.getD_cons_zero, Nat.add_zero] at hhead
    simp only [rrUsageAux, appendU, List.map_cons]
    have htail : ∀ i, i < rest.length → (rest.getD i "" = tgt ↔ j0 + 1 + i = m) := by
      intro i hi
      have := hiff (i + 1) (by simpa using Nat.succ_lt_succ hi)
      simp only [List.getD_cons_succ] at this
      constructor
      · intro h; have := this.mp h; omega
      · intro h; exact this.mpr (by omega)
    have hstep := ih (j0 + 1) htail
    rw [appendU] at hstep
    rw [hstep]
    by_cases hj : j0 = m
    · have hk : key = tgt := hhead.mpr hj
      rw [if_pos hk, rrTimes_succ, if_pos (by omega)]
    · have hk : ¬ key = tgt := fun h => hj (hhead.mp h)
      rw [if_neg hk, rrTimes_succ, if_neg (by omega)]

lemma rrUsageAux_mem_vals (N : Nat) (ts : List Int) (k : Nat) :
    ∀ (keys : List String) (j0 : Nat) (q : String × List Int),
      q ∈ rrUsageAux N ts k j0 keys → ∃ j, q.2 = rrTimes N ts j k := by
  intro keys
  induction keys with
  | nil => intro j0 q hq; simp [rrUsageAux] at hq
  | cons key rest ih =>
    intro j0 q hq
    rcases List.mem_cons.mp hq with h | h
    · exact ⟨j0, by rw [h]⟩
    · exact ih (j0 + 1) q h

/-- The prune in `get_key` is the identity when every recorded timestamp
is strictly within the window. -/
lemma pruneU_id (keys : List String) (m : Usage) (c : Int)
    (h : ∀ q ∈ m, ∀ x ∈ q.2, c < x) : pruneU keys m c = m := by
  induction m with
  | nil => rfl
  | cons q m ih =>
    have hq : ∀ x ∈ q.2, c < x := h q (List.mem_cons_self q m)
    have hfix : q.2.filter (fun t => c < t) = q.2 :=
      List.filter_eq_self.mpr (fun x hx => by simpa using hq x hx)
    simp only [pruneU, List.map_cons]
    have ih2 := ih (fun r hr => h r (List.mem_cons_of_mem q hr))
    rw [pruneU] at ih2
    rw [ih2]
    by_cases hk : q.1 ∈ keys
    · rw [if_pos hk, hfix]
    · rw [if_neg hk]

/-- Count of indices below `k` in residue class `m` modulo `N`. -/
lemma countRes (N : Nat) (hN : 0 < N) : ∀ (k m : Nat), m < N →
    ((List.range k).filter (fun i => i % N = m)).length =
      k / N + (if m < k % N then 1 else 0) := by
  intro k
  induction k with
  | zero =>
    intro m _
    simp [Nat.zero_div]
  | succ k ih =>
    intro m hm
    rw [List.range_succ, List.filter_append, List.length_append, ih m hm]
    have hdm : N * (k / N) + k % N = k := Nat.div_add_mod k N
    have key1 : (k + 1) % N = (k % N + 1) % N := by
      conv_lhs => rw [← hdm, Nat.add_assoc]
      rw [Nat.mul_add_mod]
    have key2 : (k + 1) / N = k / N + (k % N + 1) / N := by
      conv_lhs => rw [← hdm, Nat.add_assoc]
      rw [Nat.mul_add_div hN]
    have hrlt : k % N < N := Nat.mod_lt k hN
    by_cases hcase : k % N + 1 < N
    · have e1 : (k + 1) % N = k % N + 1 := by
        rw [key1, Nat.mod_eq_of_lt hcase]
      have e2 : (k + 1) / N = k / N := by
        rw [key2, Nat.div_eq_of_lt hcase, Nat.add_zero]
      rw [e1, e2]
      by_cases hk : k % N = m
      · have h1 : ¬ m < k % N := by omega
        have h2 : m < k % N + 1 := by omega
        simp [List.filter_cons, hk, h1, h2]
      · have hiff : (m < k % N) ↔ (m < k % N + 1) := by omega
        simp [List.filter_cons, hk, hiff]
    · have hNc : k % N + 1 = N := by omega
      have e1 : (k + 1) % N = 0 := by
        rw [key1, hNc, Nat.mod_self]
      have e2 : (k + 1) / N = k / N + 1 := by
        rw [key2, hNc, Nat.div_self hN]
      rw [e1, e2]
      by_cases hk : k % N = m
      · have h1 : ¬ m < k % N := by omega
        have h2 : ¬ m < 0 := by omega
        simp [List.filter_cons, hk, h1, h2]
      · have h1 : m < k % N := by omega
        have h2 : ¬ m < 0 := by omega
        simp [List.filter_cons, hk, h1, h2]

lemma getD_inj (keys : List String) (hnd : keys.Nodup) (i j : Nat)
    (hi : i < keys.length) (hj : j < keys.length)
    (h : keys.getD i "" = keys.getD j "") : i = j := by
  rw [List.getD_eq_getElem _ _ hi, List.getD_eq_getElem _ _ hj] at h
  exact (List.Nodup.getElem_inj_iff hnd).mp h

/-- The scan accepts its first candidate when that candidate is under
budget. -/
lemma scanU_accept (keys : List String) (limit : Nat) (now : Int) (m : Usage)
    (idx : Int) (fuel : Nat) (hf : 0 < fuel)
    (hacc : (lookupU m
      (keys.getD ((idx + 1) % (keys.length : Int)).toNat "")).length < limit) :
    scanU keys limit now m idx fuel =
      (some (keys.getD ((idx + 1) % (keys.length : Int)).toNat "",
             appendU m (keys.getD ((idx + 1) % (keys.length : Int)).toNat "") now),
       (idx + 1) % (keys.length : Int)) := by
  cases fuel with
  | zero => omega
  | succ n =>
    rw [scanU]
    simp only [hacc, if_true]

lemma rrCursor_next (N k : Nat) (hN : 0 < N) :
    (rrCursor N k + 1) % ((N : Nat) : Int) = ((k % N : Nat) : Int) := by
  cases k with
  | zero =>
    rw [rrCursor, if_pos rfl]
    norm_num
  | succ k =>
    rw [rrCursor, if_neg (Nat.succ_ne_zero k)]
    have h1 : (k + 1 - 1) % N = k % N := by norm_num
    rw [h1]
    have h2 : ((k % N : Nat) : Int) + 1 = (((k % N + 1 : Nat)) : Int) := by
      push_cast; ring
    rw [h2, ← Int.natCast_mod]
    congr 1
    exact Nat.mod_add_mod k N 1

lemma rrCursor_succ (N k : Nat) :
    rrCursor N (k + 1) = ((k % N : Nat) : Int) := by
  rw [rrCursor, if_neg (Nat.succ_ne_zero k)]
  norm_num

/-- **Round-robin step.** Under budget and with all instants inside one
minute, call `k` of the rotation selects the key at position `k % N` and
produces the explicit rotation state for `k + 1`. -/
lemma rr_step (name : String) (keys : List String) (B : Nat) (ts : List Int)
    (t0 : Int) (hN : keys ≠ []) (hnd : keys.Nodup)
    (hts : ∀ t ∈ ts, t0 ≤ t ∧ t < t0 + 60) (k : Nat)
    (hk : k < ts.length) (hkb : k < keys.length * B) :
    get_key (rrPool name keys B ts k) (ts.getD k 0) =
      some (keys.getD (k % keys.length) "", rrPool name keys B ts (k + 1)) := by
  have hN0 : 0 < keys.length := List.length_pos.mpr hN
  have hmodlt : k % keys.length < keys.length := Nat.mod_lt k hN0
  have hnow : ts.getD k 0 ∈ ts := by
    rw [List.getD_eq_getElem _ _ hk]
    exact List.getElem_mem _
  obtain ⟨hnow1, hnow2⟩ := hts _ hnow
  have hprune : pruneU keys (rrUsage keys ts k) (ts.getD k 0 - 60) =
      rrUsage keys ts k := by
    apply pruneU_id
    intro q hq x hx
    obtain ⟨j, hj⟩ := rrUsageAux_mem_vals keys.length ts k keys 0 q hq
    rw [hj] at hx
    obtain ⟨i, hi, hix⟩ := List.mem_map.mp hx
    have hik : i < k := by
      have := (List.mem_filter.mp hi).1
      simpa using List.mem_range.mp (by simpa using this)
    have hits : ts.getD i 0 ∈ ts := by
      rw [List.getD_eq_getElem _ _ (by omega)]
      exact List.getElem_mem _
    obtain ⟨hx1, _⟩ := hts _ hits
    rw [← hix]
    omega
  have hcur := rrCursor_next keys.length k hN0
  have hidx : ((rrCursor keys.length k + 1) %
      ((keys.length : Nat) : Int)).toNat = k % keys.length := by
    rw [hcur]
    exact Int.toNat_natCast _
  have hlook : lookupU (rrUsage keys ts k) (keys.getD (k % keys.length) "") =
      rrTimes keys.length ts (k % keys.length) k := by
    have := lookupU_rrUsageAux keys.length ts k keys 0 (k % keys.length)
      hnd hmodlt
    simpa using this
  have hcount : (rrTimes keys.length ts (k % keys.length) k).length =
      k / keys.length := by
    rw [rrTimes, List.length_map, countRes keys.length hN0 k _ hmodlt]
    simp
  have hbud : (lookupU (rrUsage keys ts k)
      (keys.getD (k % keys.length) "")).length < B := by
    rw [hlook, hcount, Nat.div_lt_iff_lt_mul hN0]
    exact Nat.mul_comm keys.length B ▸ hkb
  have happ : appendU (rrUsage keys ts k) (keys.getD (k % keys.length) "")
      (ts.getD k 0) = rrUsage keys ts (k + 1) := by
    apply appendU_rrUsageAux keys.length ts k (k % keys.length) _ rfl
    intro i hi
    constructor
    · intro h
      have := getD_inj keys hnd i (k % keys.length) hi hmodlt h
      omega
    · intro h
      have hieq : i = k % keys.length := by omega
      rw [hieq]
  have hscan := scanU_accept keys B (ts.getD k 0) (rrUsage keys ts k)
    (rrCursor keys.length k) keys.length hN0 (by rw [hidx]; exact hbud)
  rw [get_key, if_neg (by simp [rrPool, hN])]
  simp only [rrPool]
  simp only [hprune, hscan, hidx, happ]
  rw [hcur, rrCursor_succ]

/-- **Round-robin run.** Under budget, a run whose remaining instants
continue the listed schedule selects keys in pure rotation. -/
lemma rr_run (name : String) (keys : List String) (B : Nat) (ts : List Int)
    (t0 : Int) (hN : keys ≠ []) (hnd : keys.Nodup)
    (hts : ∀ t ∈ ts, t0 ≤ t ∧ t < t0 + 60)
    (hNB : ts.length ≤ keys.length * B) :
    ∀ (rem : List Int) (j : Nat),
      j + rem.length = ts.length →
      (∀ i, i < rem.length → rem.getD i 0 = ts.getD (j + i) 0) →
      (runGetKeys (rrPool name keys B ts j) rem).1 =
        (List.range rem.length).map
          (fun i => some (keys.getD ((j + i) % keys.length) "")) := by
  intro rem
  induction rem with
  | nil =>
    intro j _ _
    simp [runGetKeys]
  | cons r rem ih =>
    intro j hlen hcomp
    have hj : j < ts.length := by
      simp at hlen; omega
    have hr : r = ts.getD j 0 := by
      have := hcomp 0 (by simp)
      simpa using this
    have hstep := rr_step name keys B ts t0 hN hnd hts j hj
      (by simp at hlen; omega)
    rw [← hr] at hstep
    have hrest := ih (j + 1)
      (by simp at hlen ⊢; omega)
      (by
        intro i hi
        have h := hcomp (i + 1) (by simpa using Nat.succ_lt_succ hi)
        simp only [List.getD_cons_succ] at h
        rw [h]
        congr 1
        omega)
    simp only [runGetKeys, hstep, Option.map_some', Option.getD_some]
    rw [hrest]
    simp only [List.length_cons]
    rw [List.range_succ_eq_map, List.map_cons, List.map_map]
    congr 1
    apply List.map_congr_left
    intro i _
    have h : j + 1 + i = j + (i + 1) := by omega
    simp [Function.comp, h]

/-- Selection characterization from the fresh pool: with distinct keys,
all call instants within one minute, and at most `N × B` calls, call `i`
selects the key at position `i % N`. -/
lemma rr_sels (name : String) (keys : List String) (B : Nat) (ts : List Int)
    (t0 : Int) (hN : keys ≠ []) (hnd : keys.Nodup)
    (hts : ∀ t ∈ ts, t0 ≤ t ∧ t < t0 + 60)
    (hNB : ts.length ≤ keys.length * B)
    (i : Nat) (hi : i < ts.length) :
    (runGetKeys (mkPool name keys B) ts).1.getD i none =
      some (keys.getD (i % keys.length) "") := by
  have h := rr_run name keys B ts t0 hN hnd hts hNB ts 0 (by simp)
    (fun i _ => by simp)
  rw [rrPool_zero] at h
  rw [h, List.getD_eq_getElem _ _ (by simpa using hi)]
  simp

/-- **C3.** Round-robin fairness: starting from a fresh pool of `N`
distinct credentials with per-minute budget `B`, over fewer than `N × B`
acquisitions all issued within one minute, whenever calls `a < b` return
the same credential, every other pooled credential is returned by some
call strictly between them — no credential is returned twice before
every other credential (all of which still have remaining budget in this
regime) has been returned once. -/
theorem C3_round_robin_fairness (name : String) (keys : List String)
    (B : Nat) (t0 : Int) (ts : List Int)
    (hN : keys ≠ []) (hnd : keys.Nodup)
    (hts : ∀ t ∈ ts, t0 ≤ t ∧ t < t0 + 60)
    (hlen : ts.length < keys.length * B)
    (a b : Nat) (hab : a < b) (hb : b < ts.length)
    (heq : (runGetKeys (mkPool name keys B) ts).1.getD a none =
           (runGetKeys (mkPool name keys B) ts).1.getD b none)
    (key2 : String) (hk2 : key2 ∈ keys)
    (hne2 : some key2 ≠ (runGetKeys (mkPool name keys B) ts).1.getD a none) :
    ∃ c, a < c ∧ c < b ∧
      (runGetKeys (mkPool name keys B) ts).1.getD c none = some key2 := by
  have hN0 : 0 < keys.length := List.length_pos.mpr hN
  have hNB : ts.length ≤ keys.length * B := le_of_lt hlen
  have hsa := rr_sels name keys B ts t0 hN hnd hts hNB a (by omega)
  have hsb := rr_sels name keys B ts t0 hN hnd hts hNB b hb
  rw [hsa, hsb] at heq
  have heq2 : keys.getD (a % keys.length) "" = keys.getD (b % keys.length) "" := by
    injection heq
  have hmodeq : a % keys.length = b % keys.length :=
    getD_inj keys hnd _ _ (Nat.mod_lt a hN0) (Nat.mod_lt b hN0) heq2
  have hdvd : keys.length ∣ b - a :=
    (Nat.modEq_iff_dvd' (le_of_lt hab)).mp hmodeq
  have hba : keys.length ≤ b - a := Nat.le_of_dvd (by omega) hdvd
  obtain ⟨j2, hj2, hj2e⟩ := List.mem_iff_getElem.mp hk2
  have hj2d : keys.getD j2 "" = key2 := by
    rw [List.getD_eq_getElem _ _ hj2, hj2e]
  have hja : j2 ≠ a % keys.length := by
    intro h
    apply hne2
    rw [hsa, ← hj2d, h]
  have hd0 : (j2 + keys.length - a % keys.length) % keys.length ≠ 0 := by
    intro h
    obtain ⟨q, hq⟩ := Nat.dvd_of_mod_eq_zero h
    have h1 : a % keys.length < keys.length := Nat.mod_lt a hN0
    rcases q with _ | _ | q
    · omega
    · omega
    · have h2 : keys.length * 2 ≤ keys.length * (q + 1 + 1) :=
        Nat.mul_le_mul_left _ (by omega)
      omega
  have hdlt : (j2 + keys.length - a % keys.length) % keys.length <
      keys.length := Nat.mod_lt _ hN0
  have hcc : (a + (j2 + keys.length - a % keys.length) % keys.length) %
      keys.length = j2 := by
    have h3 : a % keys.length + (j2 + keys.length - a % keys.length) =
        j2 + keys.length := by
      have h1 : a % keys.length < keys.length := Nat.mod_lt a hN0
      omega
    calc (a + (j2 + keys.length - a % keys.length) % keys.length) % keys.length
        = (a % keys.length +
            (j2 + keys.length - a % keys.length) % keys.length % keys.length) %
            keys.length := Nat.add_mod _ _ _
      _ = (a % keys.length +
            (j2 + keys.length - a % keys.length) % keys.length) % keys.length := by
          rw [Nat.mod_mod_of_dvd _ dvd_rfl]
      _ = (a % keys.length % keys.length +
            (j2 + keys.length - a % keys.length) % keys.length) % keys.length := by
          rw [Nat.mod_mod_of_dvd _ dvd_rfl]
      _ = (a % keys.length + (j2 + keys.length - a % keys.length)) %
            keys.length := (Nat.add_mod _ _ _).symm
      _ = (j2 + keys.length) % keys.length := by rw [h3]
      _ = j2 % keys.length := Nat.add_mod_right _ _
      _ = j2 := Nat.mod_eq_of_lt hj2
  refine ⟨a + (j2 + keys.length - a % keys.length) % keys.length,
    by omega, by omega, ?_⟩
  rw [rr_sels name keys B ts t0 hN hnd hts hNB _ (by omega), hcc, hj2d]

theorem C3_round_robin_fairness_w :
    ∃ c, 0 < c ∧ c < 2 ∧
      (runGetKeys (mkPool "svc" ["k0", "k1"] 2) [0, 0, 0]).1.getD c none =
        some "k1" :=
  C3_round_robin_fairness "svc" ["k0", "k1"] 2 0 [0, 0, 0]
    (by decide) (by decide) (by decide) (by decide)
    0 2 (by decide) (by decide) (by decide) "k1" (by decide) (by decide)

end ApiKeyPoolM


/-! ## Dynamic Python values

Result payloads of the task manager and cache values are arbitrary
nested blobs of Python primitives, sequences and string-keyed mappings.
Following the spec's data model they are a tagged sum (null, bool, int,
string, sequence, mapping).  The list/dict spines are mutual inductives
so every function below is structurally recursive and kernel-evaluable
on concrete witnesses.  Floats do not occur in the modelled payloads. -/

mutual
inductive PyVal where
  | vnone : PyVal
  | vbool (b : Bool) : PyVal
  | vint (n : Int) : PyVal
  | vstr (s : String) : PyVal
  | vlist (xs : PyList) : PyVal
  | vdict (kvs : PyDict) : PyVal
inductive PyList where
  | nil : PyList
  | cons (hd : PyVal) (tl : PyList) : PyList
inductive PyDict where
  | nil : PyDict
  | cons (k : String) (v : PyVal) (tl : PyDict) : PyDict
end

deriving instance DecidableEq for PyVal, PyList, PyDict

/-- Python's `value is None` identity test. -/
def PyVal.isNone : PyVal → Bool
  | .vnone => true
  | _ => false

/-! ## Task manager (`app/services/background_processor.py`, `TaskManager`) -/

namespace TaskMgrM

inductive TStatus where
  | PENDING
  | PROCESSING
  | SUCCESS
  | FAILURE
  | CANCELLED
deriving DecidableEq, Repr

/-- One record of `self.tasks` (the `'function'`, `'args'`, `'kwargs'`
strings are those stored by `create_task`). -/
structure TaskInfo where
  status : TStatus
  created_at : Int
  functionName : String
  args : String
  kwargs : String
  started_at : Option Int
  completed_at : Option Int
  error : Option String
deriving DecidableEq, Repr

/-- `TaskManager` state: `self.tasks`, `self.results`,
`self._last_cleanup`.  The constants `max_tasks_in_memory = 1000` and
`_cleanup_interval = 3600` are inlined; the 24-hour retention cutoff is
86400 seconds. -/
structure TMState where
  tasks : List (String × TaskInfo)
  results : List (String × PyVal)
  last_cleanup : Int

def lookupT (m : List (String × TaskInfo)) (k : String) : Option TaskInfo :=
  (m.find? (fun p => p.1 = k)).map (·.2)

def setT (m : List (String × TaskInfo)) (k : String) (v : TaskInfo) :
    List (String × TaskInfo) :=
  if (m.find? (fun p => p.1 = k)).isSome
  then m.map (fun p => if p.1 = k then (k, v) else p)
  else m ++ [(k, v)]

def lookupR (m : List (String × PyVal)) (k : String) : Option PyVal :=
  (m.find? (fun p => p.1 = k)).map (·.2)

def setR (m : List (String × PyVal)) (k : String) (v : PyVal) :
    List (String × PyVal) :=
  if (m.find? (fun p => p.1 = k)).isSome
  then m.map (fun p => if p.1 = k then (k, v) else p)
  else m ++ [(k, v)]

/-- Ascending comparison on `completed_at` sort keys, with a missing
timestamp playing `datetime.min`. -/
def optKeyLe : Option Int → Option Int → Bool
  | none, _ => true
  | some _, none => false
  | some a, some b => a ≤ b

/-- `TaskManager._cleanup_old_tasks`: interval guard; purge of records
older than 24 hours (with their results); then, above 1000 records,
purge of the oldest half of the terminal (SUCCESS/FAILURE) records,
oldest `completed_at` first (Python's stable ascending sort; dict
deletion preserves the survivors' order). -/
def cleanup_old_tasks (s : TMState) (now : Int) : TMState :=
  if now - s.last_cleanup < 3600 then s
  else
    let cutoff := now - 86400
    let old_ids := (s.tasks.filter (fun p => p.2.created_at < cutoff)).map Prod.fst
    let tasks1 := s.tasks.filter (fun p => ¬ p.1 ∈ old_ids)
    let results1 := s.results.filter (fun p => ¬ p.1 ∈ old_ids)
    if tasks1.length > 1000 then
      let completed := tasks1.filter
        (fun p => p.2.status = .SUCCESS ∨ p.2.status = .FAILURE)
      let sortedC := completed.mergeSort
        (fun x y => optKeyLe x.2.completed_at y.2.completed_at)
      let to_remove := (sortedC.take (completed.length / 2)).map Prod.fst
      ⟨tasks1.filter (fun p => ¬ p.1 ∈ to_remove),
       results1.filter (fun p => ¬ p.1 ∈ to_remove), now⟩
    else ⟨tasks1, results1, now⟩

/-- `TaskManager.create_task`: record a PENDING task (argument reprs
truncated to 100 characters), schedule the execution, run the periodic
cleanup.  The fresh `uuid4` is abstracted as the supplied `task_id`. -/
def create_task (s : TMState) (task_id : String) (fname : String)
    (args kwargs : String) (now : Int) : TMState :=
  let info : TaskInfo :=
    ⟨.PENDING, now, fname, args.take 100, kwargs.take 100, none, none, none⟩
  let s1 : TMState := { s with tasks := setT s.tasks task_id info }
  cleanup_old_tasks s1 now

/-- First half of `TaskManager._execute_task`: unconditionally mark the
record PROCESSING and stamp `started_at`.  (On a vanished record the
Python `KeyError` escapes the task; the state is untouched.) -/
def execStart (s : TMState) (task_id : String) (now : Int) : TMState :=
  if (lookupT s.tasks task_id).isSome then
    { s with tasks := s.tasks.map (fun p =>
        if p.1 = task_id then
          (task_id, { p.2 with status := .PROCESSING, started_at := some now })
        else p) }
  else s

/-- Second half of `TaskManager._execute_task`: on normal return store
the result and mark SUCCESS; on a raised failure mark FAILURE with the
captured error description.  The invoked job is the opaque outcome. -/
def execFinish (s : TMState) (task_id : String) (now : Int)
    (outcome : Except String PyVal) : TMState :=
  match outcome with
  | .ok v =>
    if (lookupT s.tasks task_id).isSome then
      let tasks2 := s.tasks.map (fun p =>
        if p.1 = task_id then
          (task_id, { p.2 with status := .SUCCESS, completed_at := some now })
        else p)
      { s with tasks := tasks2, results := setR s.results task_id v }
    else s
  | .error e =>
    if (lookupT s.tasks task_id).isSome then
      let tasks2 := s.tasks.map (fun p =>
        if p.1 = task_id then
          (task_id,
           { p.2 with
               status := .FAILURE
               error := some e
               completed_at := some now })
        else p)
      { s with tasks := tasks2 }
    else s

/-- Status reported by `get_task_status` (`'NOT_FOUND'` is a response
value, distinct from every stored status). -/
inductive RStatus where
  | st (s : TStatus)
  | notFound
deriving DecidableEq, Repr

/-- The response dictionary of `get_task_status`; absent keys are
`none`. -/
structure TaskResponse where
  task_id : String
  status : RStatus
  functionName : Option String
  created_at : Option Int
  started_at : Option Int
  completed_at : Option Int
  result : Option PyVal
  error : Option String

/-- `TaskManager.get_task_status`: NOT_FOUND for an unknown id;
otherwise the record fields, with the result attached only on SUCCESS
when the stored result `is not None`, and the error only on FAILURE. -/
def get_task_status (s : TMState) (task_id : String) : TaskResponse :=
  match lookupT s.tasks task_id with
  | none =>
    ⟨task_id, .notFound, none, none, none, none, none,
     some "Task not found or expired"⟩
  | some info =>
    let resultOpt := lookupR s.results task_id
    let resIsNone := match resultOpt with
      | none => true
      | some v => v.isNone
    let base : TaskResponse := ⟨task_id, .st info.status,
      some info.functionName, some info.created_at, info.started_at,
      info.completed_at, none, none⟩
    if info.status = .SUCCESS ∧ resIsNone = false then
      { base with result := resultOpt }
    else if info.status = .FAILURE then
      { base with error := info.error }
    else base

/-- `TaskManager.cancel_task`: succeeds (and stamps CANCELLED with a
completion time) only while the record reads PENDING. -/
def cancel_task (s : TMState) (task_id : String) (now : Int) :
    Bool × TMState :=
  match lookupT s.tasks task_id with
  | some info =>
    if info.status = .PENDING then
      (true, { s with tasks := s.tasks.map (fun p =>
        if p.1 = task_id then
          (task_id, { p.2 with status := .CANCELLED, completed_at := some now })
        else p) })
    else (false, s)
  | none => (false, s)

/-- **C2 (the claim is right; the code is wrong).**  `cancel_task`
returns true from PENDING and the record then reads CANCELLED — but the
already-scheduled execution of that very task later runs
`_execute_task`, which unconditionally overwrites the status: the
record moves CANCELLED → PROCESSING → SUCCESS.  The spec's state
machine has no edge out of CANCELLED and demands monotone transitions;
`_execute_task` (lines 85–111) never checks for cancellation, so a
cancelled task is executed anyway and its CANCELLED status is lost. -/
theorem C2_code_bug_cancelled_task_reexecuted :
    (cancel_task (create_task ⟨[], [], 0⟩ "t1" "job" "()" "\x7b\x7d" 0)
        "t1" 1).1 = true ∧
    (get_task_status
        (cancel_task (create_task ⟨[], [], 0⟩ "t1" "job" "()" "\x7b\x7d" 0)
          "t1" 1).2 "t1").status = .st .CANCELLED ∧
    (get_task_status
        (execStart
          (cancel_task (create_task ⟨[], [], 0⟩ "t1" "job" "()" "\x7b\x7d" 0)
            "t1" 1).2 "t1" 2) "t1").status = .st .PROCESSING ∧
    (get_task_status
        (execFinish
          (execStart
            (cancel_task (create_task ⟨[], [], 0⟩ "t1" "job" "()" "\x7b\x7d" 0)
              "t1" 1).2 "t1" 2) "t1" 3 (.ok (PyVal.vstr "r")))
        "t1").status = .st .SUCCESS := by
  decide

/-- **C10.**  A job that completes normally with return value `None`
drives its record to SUCCESS, but — because `get_task_status` attaches
the result only when the stored result `is not None` — the response
carries neither a `result` nor an `error` field, and it is equal to the
response computed after the stored result is dropped entirely (as
retention would drop it): the two cases are indistinguishable at the
status interface. -/
theorem C10_none_result_invisible_success (task_id fname args kwargs : String)
    (t0 t1 t2 : Int) :
    (get_task_status
        (execFinish (execStart
          (create_task ⟨[], [], t0⟩ task_id fname args kwargs t0)
          task_id t1) task_id t2 (.ok PyVal.vnone)) task_id).status
      = .st .SUCCESS ∧
    (get_task_status
        (execFinish (execStart
          (create_task ⟨[], [], t0⟩ task_id fname args kwargs t0)
          task_id t1) task_id t2 (.ok PyVal.vnone)) task_id).result = none ∧
    (get_task_status
        (execFinish (execStart
          (create_task ⟨[], [], t0⟩ task_id fname args kwargs t0)
          task_id t1) task_id t2 (.ok PyVal.vnone)) task_id).error = none ∧
    get_task_status
        (execFinish (execStart
          (create_task ⟨[], [], t0⟩ task_id fname args kwargs t0)
          task_id t1) task_id t2 (.ok PyVal.vnone)) task_id =
      get_task_status
        { execFinish (execStart
            (create_task ⟨[], [], t0⟩ task_id fname args kwargs t0)
            task_id t1) task_id t2 (.ok PyVal.vnone) with results := [] }
        task_id := by
  have h1 : create_task ⟨[], [], t0⟩ task_id fname args kwargs t0 =
      ⟨[(task_id, ⟨.PENDING, t0, fname, args.take 100, kwargs.take 100,
        none, none, none⟩)], [], t0⟩ := by
    simp [create_task, setT, cleanup_old_tasks, lookupT, List.find?]
  rw [h1]
  have h2 : execStart (⟨[(task_id, ⟨.PENDING, t0, fname, args.take 100,
      kwargs.take 100, none, none, none⟩)], [], t0⟩ : TMState) task_id t1 =
      ⟨[(task_id, ⟨.PROCESSING, t0, fname, args.take 100, kwargs.take 100,
        some t1, none, none⟩)], [], t0⟩ := by
    simp [execStart, lookupT, List.find?]
  rw [h2]
  have h3 : execFinish (⟨[(task_id, ⟨.PROCESSING, t0, fname, args.take 100,
      kwargs.take 100, some t1, none, none⟩)], [], t0⟩ : TMState) task_id t2
      (.ok PyVal.vnone) =
      ⟨[(task_id, ⟨.SUCCESS, t0, fname, args.take 100, kwargs.take 100,
        some t1, some t2, none⟩)], [(task_id, PyVal.vnone)], t0⟩ := by
    simp [execFinish, lookupT, setR, List.find?]
  rw [h3]
  refine ⟨?_, ?_, ?_, ?_⟩ <;>
    simp [get_task_status, lookupT, lookupR, List.find?, PyVal.isNone]

end TaskMgrM

/-! ## JSON serialization (`json.dumps` / `json.loads`)

The durable cache tier stores `json.dumps(cache_item, default=str)` and
decodes with `json.loads`; `generate_cache_key` uses
`json.dumps(options, sort_keys=True)`.  The two stdlib calls are
modelled concretely: a renderer emitting exactly Python's default
output (separators `", "` and `": "`, decimal integers, keys sorted on
demand) and a recursive-descent parser for that output (`json.loads`
restricted to the encoder's canonical image — other inputs only ever
appear as corrupted durable data, where any parse failure is treated as
corruption).  Strings are rendered verbatim, which matches `json.dumps`
exactly for strings without characters needing escapes; the round-trip
theorems carry that `goodVal` restriction. -/

namespace JsonM

def digitChar : Nat → Char
  | 0 => '0' | 1 => '1' | 2 => '2' | 3 => '3' | 4 => '4'
  | 5 => '5' | 6 => '6' | 7 => '7' | 8 => '8' | _ => '9'

def natDigitsAux : Nat → Nat → List Char
  | 0, _ => []
  | fuel + 1, n =>
    if n < 10 then [digitChar n]
    else natDigitsAux fuel (n / 10) ++ [digitChar (n % 10)]

/-- Decimal digits of `n` (Python `str` of a non-negative int). -/
def natDigits (n : Nat) : List Char := natDigitsAux (n + 1) n

/-- Python `str` of an int, as characters. -/
def intDigits : Int → List Char
  | .ofNat n => natDigits n
  | .negSucc n => '-' :: natDigits (n + 1)

/-- Python `str` of an int. -/
def intStr (n : Int) : String := ⟨intDigits n⟩

def isDigit (c : Char) : Bool := decide (48 ≤ c.toNat ∧ c.toNat ≤ 57)

def digitVal (c : Char) : Nat := c.toNat - 48

/-- Greedy digit run with accumulator (the int-literal scanner). -/
def parseDigitsAcc : List Char → Nat → Nat × List Char
  | [], acc => (acc, [])
  | c :: cs, acc =>
    if isDigit c then parseDigitsAcc cs (acc * 10 + digitVal c)
    else (acc, c :: cs)

/-- `int(...)` parsing of a whole decimal string (also the model of
`datetime.fromisoformat` on the integer-instant encoding of
timestamps). -/
def parseIntStr (s : String) : Option Int :=
  match s.data with
  | c :: cs =>
    if c = '-' then
      match cs with
      | c2 :: cs2 =>
        if isDigit c2 then
          if (parseDigitsAcc cs2 (digitVal c2)).2 = [] then
            some (-(((parseDigitsAcc cs2 (digitVal c2)).1 : Nat) : Int))
          else none
        else none
      | [] => none
    else if isDigit c then
      if (parseDigitsAcc cs (digitVal c)).2 = [] then
        some ((((parseDigitsAcc cs (digitVal c)).1 : Nat) : Int))
      else none
    else none
  | [] => none

mutual
/-- `json.dumps` with Python's default separators, on characters. -/
def renderVal : PyVal → List Char
  | .vnone => ['n', 'u', 'l', 'l']
  | .vbool true => ['t', 'r', 'u', 'e']
  | .vbool false => ['f', 'a', 'l', 's', 'e']
  | .vint n => intDigits n
  | .vstr s => '"' :: s.data ++ ['"']
  | .vlist .nil => ['[', ']']
  | .vlist (.cons x xs) => '[' :: (renderVal x ++ renderList xs ++ [']'])
  | .vdict .nil => ['\x7b', '\x7d']
  | .vdict (.cons k v kvs) =>
    '\x7b' :: ('"' :: k.data ++ ['"', ':', ' '] ++ renderVal v ++
      renderDict kvs ++ ['\x7d'])
def renderList : PyList → List Char
  | .nil => []
  | .cons x xs => ',' :: ' ' :: (renderVal x ++ renderList xs)
def renderDict : PyDict → List Char
  | .nil => []
  | .cons k v kvs =>
    ',' :: ' ' :: ('"' :: k.data ++ ['"', ':', ' '] ++ renderVal v ++
      renderDict kvs)
end

mutual
/-- Characters that `json.dumps` emits verbatim inside a string literal
(printable ASCII without the quote and the backslash). -/
def goodVal : PyVal → Bool
  | .vnone => true
  | .vbool _ => true
  | .vint _ => true
  | .vstr s => s.data.all (fun c =>
      decide (32 ≤ c.toNat ∧ c.toNat ≤ 126 ∧ c ≠ '"' ∧ c ≠ '\\'))
  | .vlist xs => goodList xs
  | .vdict kvs => goodDict kvs
def goodList : PyList → Bool
  | .nil => true
  | .cons x xs => goodVal x && goodList xs
def goodDict : PyDict → Bool
  | .nil => true
  | .cons k v kvs =>
    k.data.all (fun c =>
      decide (32 ≤ c.toNat ∧ c.toNat ≤ 126 ∧ c ≠ '"' ∧ c ≠ '\\')) &&
      (goodVal v && goodDict kvs)
end

def goodStr (s : String) : Bool :=
  s.data.all (fun c => decide (32 ≤ c.toNat ∧ c.toNat ≤ 126 ∧ c ≠ '"' ∧ c ≠ '\\'))

/-- String-literal body scanner: everything up to the closing quote. -/
def parseStrAux : List Char → List Char → Option (List Char × List Char)
  | _, [] => none
  | acc, c :: rest =>
    if c = '"' then some (acc.reverse, rest) else parseStrAux (c :: acc) rest

def parseStrBody (cs : List Char) : Option (String × List Char) :=
  (parseStrAux [] cs).map (fun p => (⟨p.1⟩, p.2))

/-- 3-character keyword tail (`null`, `true`). -/
def parseKw3 (a b c : Char) (v : PyVal) (cs : List Char) :
    Option (PyVal × List Char) :=
  match cs with
  | x :: y :: z :: r => if x = a ∧ y = b ∧ z = c then some (v, r) else none
  | _ => none

/-- 4-character keyword tail (`alse` of `false`). -/
def parseKw4 (a b c d : Char) (v : PyVal) (cs : List Char) :
    Option (PyVal × List Char) :=
  match cs with
  | x :: y :: z :: w :: r =>
    if x = a ∧ y = b ∧ z = c ∧ w = d then some (v, r) else none
  | _ => none

/-- Negative int literal, after the minus sign. -/
def parseNeg (cs : List Char) : Option (PyVal × List Char) :=
  match cs with
  | c2 :: rest2 =>
    if isDigit c2 then
      some (.vint (-(((parseDigitsAcc rest2 (digitVal c2)).1 : Nat) : Int)),
        (parseDigitsAcc rest2 (digitVal c2)).2)
    else none
  | [] => none

mutual
/-- Recursive-descent `json.loads` on the canonical output format.  The
fuel bounds nesting and element count; `sizeVal` fuel always suffices. -/
def parseVal : Nat → List Char → Option (PyVal × List Char)
  | 0, _ => none
  | _ + 1, [] => none
  | fuel + 1, c :: rest =>
    if c = 'n' then parseKw3 'u' 'l' 'l' .vnone rest
    else if c = 't' then parseKw3 'r' 'u' 'e' (.vbool true) rest
    else if c = 'f' then parseKw4 'a' 'l' 's' 'e' (.vbool false) rest
    else if c = '"' then
      (parseStrBody rest).map (fun p => (PyVal.vstr p.1, p.2))
    else if c = '[' then
      (parseListBody fuel rest).map (fun p => (PyVal.vlist p.1, p.2))
    else if c = '\x7b' then
      (parseDictBody fuel rest).map (fun p => (PyVal.vdict p.1, p.2))
    else if c = '-' then parseNeg rest
    else if isDigit c then
      some (.vint (((parseDigitsAcc rest (digitVal c)).1 : Nat) : Int),
        (parseDigitsAcc rest (digitVal c)).2)
    else none
def parseListBody : Nat → List Char → Option (PyList × List Char)
  | 0, _ => none
  | _ + 1, [] => none
  | fuel + 1, c :: rest =>
    if c = ']' then some (.nil, rest)
    else
      (parseVal fuel (c :: rest)).bind (fun pv =>
        (parseListTail fuel pv.2).map (fun pt => (PyList.cons pv.1 pt.1, pt.2)))
def parseListTail : Nat → List Char → Option (PyList × List Char)
  | 0, _ => none
  | _ + 1, [] => none
  | fuel + 1, c :: rest =>
    if c = ']' then some (.nil, rest)
    else if c = ',' then
      match rest with
      | c2 :: rest2 =>
        if c2 = ' ' then
          (parseVal fuel rest2).bind (fun pv =>
            (parseListTail fuel pv.2).map (fun pt =>
              (PyList.cons pv.1 pt.1, pt.2)))
        else none
      | [] => none
    else none
def parseDictBody : Nat → List Char → Option (PyDict × List Char)
  | 0, _ => none
  | _ + 1, [] => none
  | fuel + 1, c :: rest =>
    if c = '\x7d' then some (.nil, rest)
    else if c = '"' then
      (parseStrBody rest).bind (fun pk =>
        match pk.2 with
        | c1 :: c2 :: rest3 =>
          if c1 = ':' ∧ c2 = ' ' then
            (parseVal fuel rest3).bind (fun pv =>
              (parseDictTail fuel pv.2).map (fun pt =>
                (PyDict.cons pk.1 pv.1 pt.1, pt.2)))
          else none
        | _ => none)
    else none
def parseDictTail : Nat → List Char → Option (PyDict × List Char)
  | 0, _ => none
  | _ + 1, [] => none
  | fuel + 1, c :: rest =>
    if c = '\x7d' then some (.nil, rest)
    else if c = ',' then
      match rest with
      | c2 :: c3 :: rest2 =>
        if c2 = ' ' ∧ c3 = '"' then
          (parseStrBody rest2).bind (fun pk =>
            match pk.2 with
            | c4 :: c5 :: rest4 =>
              if c4 = ':' ∧ c5 = ' ' then
                (parseVal fuel rest4).bind (fun pv =>
                  (parseDictTail fuel pv.2).map (fun pt =>
                    (PyDict.cons pk.1 pv.1 pt.1, pt.2)))
              else none
            | _ => none)
        else none
      | _ => none
    else none
end

/-- Sorted insertion by key (ascending code-point order, as Python's
`sorted` produces for the distinct keys of a dict). -/
def insertDict (k : String) (v : PyVal) : PyDict → PyDict
  | .nil => .cons k v .nil
  | .cons k2 v2 rest =>
    if k < k2 then .cons k v (.cons k2 v2 rest)
    else .cons k2 v2 (insertDict k v rest)

mutual
/-- `sort_keys=True`: recursively sort every mapping's keys. -/
def sortVal : PyVal → PyVal
  | .vnone => .vnone
  | .vbool b => .vbool b
  | .vint n => .vint n
  | .vstr s => .vstr s
  | .vlist xs => .vlist (sortListVals xs)
  | .vdict kvs => .vdict (sortDictEntries kvs)
def sortListVals : PyList → PyList
  | .nil => .nil
  | .cons x xs => .cons (sortVal x) (sortListVals xs)
def sortDictEntries : PyDict → PyDict
  | .nil => .nil
  | .cons k v kvs => insertDict k (sortVal v) (sortDictEntries kvs)
end

mutual
/-- Constructor count, a fuel bound for the parser. -/
def sizeVal : PyVal → Nat
  | .vlist xs => sizeList xs + 1
  | .vdict kvs => sizeDict kvs + 1
  | _ => 1
def sizeList : PyList → Nat
  | .nil => 1
  | .cons x xs => sizeVal x + sizeList xs + 1
def sizeDict : PyDict → Nat
  | .nil => 1
  | .cons _ v kvs => sizeVal v + sizeDict kvs + 1
end

/-- `json.dumps` (Python default separators; optional `sort_keys`). -/
def jsonDumps (sortKeys : Bool) (v : PyVal) : String :=
  ⟨renderVal (if sortKeys then sortVal v else v)⟩

/-- `json.loads` on the canonical output format (ample fuel). -/
def jsonLoads (s : String) : Option PyVal :=
  match parseVal (2 * s.length + 2) s.data with
  | some (v, []) => some v
  | _ => none

lemma digitVal_digitChar (d : Nat) (hd : d < 10) :
    digitVal (digitChar d) = d := by
  interval_cases d <;> rfl

lemma isDigit_digitChar (d : Nat) (hd : d < 10) :
    isDigit (digitChar d) = true := by
  interval_cases d <;> rfl

lemma natDigitsAux_ne_nil (fuel n : Nat) (h : 0 < fuel) :
    natDigitsAux fuel n ≠ [] := by
  cases fuel with
  | zero => omega
  | succ f =>
    rw [natDigitsAux]
    by_cases h10 : n < 10
    · simp [h10]
    · simp [h10]

lemma natDigitsAux_digits (fuel : Nat) : ∀ (n : Nat),
    ∀ c ∈ natDigitsAux fuel n, isDigit c = true := by
  induction fuel with
  | zero => intro n c hc; simp [natDigitsAux] at hc
  | succ f ih =>
    intro n c hc
    rw [natDigitsAux] at hc
    by_cases h10 : n < 10
    · rw [if_pos h10] at hc
      simp at hc
      rw [hc]
      exact isDigit_digitChar n h10
    · rw [if_neg h10] at hc
      rcases List.mem_append.mp hc with h1 | h2
      · exact ih (n / 10) c h1
      · simp at h2
        rw [h2]
        exact isDigit_digitChar (n % 10) (Nat.mod_lt n (by norm_num))

lemma natDigitsAux_foldl (fuel : Nat) : ∀ (n acc : Nat), n < 10 ^ fuel →
    (natDigitsAux fuel n).foldl (fun a c => a * 10 + digitVal c) acc =
      acc * 10 ^ (natDigitsAux fuel n).length + n := by
  induction fuel with
  | zero =>
    intro n acc h
    simp [natDigitsAux]
    omega
  | succ f ih =>
    intro n acc h
    rw [natDigitsAux]
    by_cases h10 : n < 10
    · rw [if_pos h10]
      simp only [List.foldl_cons, List.foldl_nil, List.length_singleton,
        digitVal_digitChar n h10, pow_one]
    · rw [if_neg h10, List.foldl_append]
      have hdiv : n / 10 < 10 ^ f := by
        rw [Nat.div_lt_iff_lt_mul (by norm_num)]
        calc n < 10 ^ (f + 1) := h
        _ = 10 ^ f * 10 := by rw [Nat.pow_succ]
      rw [ih (n / 10) acc hdiv]
      simp [digitVal_digitChar (n % 10) (Nat.mod_lt n (by norm_num)),
        List.length_append, Nat.pow_succ]
      have := Nat.div_add_mod n 10
      ring_nf
      omega

/-- `natDigits` carries exactly the value it was rendered from. -/
lemma natDigits_foldl (n : Nat) :
    (natDigits n).foldl (fun a c => a * 10 + digitVal c) 0 = n := by
  have hlt : n < 10 ^ (n + 1) := by
    have h1 : n < 10 ^ n := Nat.lt_pow_self (by norm_num : (1:ℕ) < 10) n
    have h2 : 10 ^ n ≤ 10 ^ (n + 1) := Nat.pow_le_pow_right (by norm_num) (by omega)
    omega
  have := natDigitsAux_foldl (n + 1) n 0 hlt
  simpa using this

/-- The next character after a rendered token must not extend a digit
run. -/
def notDigitStart : List Char → Prop
  | [] => True
  | c :: _ => isDigit c = false

lemma parseDigitsAcc_spec : ∀ (ds : List Char),
    (∀ c ∈ ds, isDigit c = true) →
    ∀ (rest : List Char), notDigitStart rest → ∀ acc,
      parseDigitsAcc (ds ++ rest) acc =
        (ds.foldl (fun a c => a * 10 + digitVal c) acc, rest) := by
  intro ds
  induction ds with
  | nil =>
    intro _ rest hrest acc
    cases rest with
    | nil => rfl
    | cons c cs =>
      simp only [notDigitStart] at hrest
      simp [parseDigitsAcc, hrest]
  | cons d ds ih =>
    intro hds rest hrest acc
    have hd : isDigit d = true := hds d (List.mem_cons_self d ds)
    simp only [List.cons_append, parseDigitsAcc, hd, if_true]
    exact ih (fun c hc => hds c (List.mem_cons_of_mem d hc)) rest hrest _

lemma isDigit_ne (c x : Char) (h : isDigit c = true)
    (hx : isDigit x = false) : c ≠ x := by
  intro he
  rw [he, hx] at h
  exact Bool.false_ne_true h

/-- A rendered value begins with a character that closes nothing. -/
lemma renderVal_head (v : PyVal) :
    ∃ c tl, renderVal v = c :: tl ∧ c ≠ ']' ∧ c ≠ '\x7d' := by
  cases v with
  | vnone => exact ⟨'n', _, rfl, by decide, by decide⟩
  | vbool b =>
    cases b with
    | false => exact ⟨'f', _, rfl, by decide, by decide⟩
    | true => exact ⟨'t', _, rfl, by decide, by decide⟩
  | vint n =>
    cases n with
    | ofNat m =>
      obtain ⟨c, tl, hctl⟩ :=
        List.exists_cons_of_ne_nil (natDigitsAux_ne_nil (m + 1) m (by omega))
      have hcd : isDigit c = true := by
        apply natDigitsAux_digits (m + 1) m
        rw [hctl]
        exact List.mem_cons_self c tl
      exact ⟨c, tl, hctl, isDigit_ne c _ hcd (by decide),
        isDigit_ne c _ hcd (by decide)⟩
    | negSucc m => exact ⟨'-', _, rfl, by decide, by decide⟩
  | vstr s => exact ⟨'"', _, rfl, by decide, by decide⟩
  | vlist xs =>
    cases xs with
    | nil => exact ⟨'[', _, rfl, by decide, by decide⟩
    | cons x xs => exact ⟨'[', _, rfl, by decide, by decide⟩
  | vdict kvs =>
    cases kvs with
    | nil => exact ⟨'\x7b', _, rfl, by decide, by decide⟩
    | cons k v kvs => exact ⟨'\x7b', _, rfl, by decide, by decide⟩

lemma parseStrAux_spec : ∀ (s : List Char), (∀ c ∈ s, c ≠ '"') →
    ∀ (rest acc : List Char),
      parseStrAux acc (s ++ '"' :: rest) = some (acc.reverse ++ s, rest) := by
  intro s
  induction s with
  | nil =>
    intro _ rest acc
    simp [parseStrAux]
  | cons c s ih =>
    intro hs rest acc
    have hc : c ≠ '"' := hs c (List.mem_cons_self c s)
    rw [List.cons_append, parseStrAux, if_neg hc]
    exact (ih (fun x hx => hs x (List.mem_cons_of_mem c hx)) rest (c :: acc)).trans
      (by simp)

lemma goodStr_chars (s : String) (hs : goodStr s = true) :
    ∀ c ∈ s.data, c ≠ '"' := by
  intro c hc
  have h := (List.all_eq_true.mp hs) c hc
  simp only [decide_eq_true_eq] at h
  exact h.2.2.1

lemma parseStrBody_spec (s : String) (hs : goodStr s = true)
    (rest : List Char) : parseStrBody (s.data ++ '"' :: rest) = some (s, rest) := by
  rw [parseStrBody, parseStrAux_spec s.data (goodStr_chars s hs) rest []]
  simp

lemma notDigitStart_renderList (xs : PyList) (rest : List Char) :
    notDigitStart (renderList xs ++ ']' :: rest) := by
  cases xs with
  | nil => exact (by decide : isDigit ']' = false)
  | cons x xs => exact (by decide : isDigit ',' = false)

lemma notDigitStart_renderDict (kvs : PyDict) (rest : List Char) :
    notDigitStart (renderDict kvs ++ '\x7d' :: rest) := by
  cases kvs with
  | nil => exact (by decide : isDigit '\x7d' = false)
  | cons k v kvs => exact (by decide : isDigit ',' = false)

/-- Number branch of the parser inverts the integer renderer. -/
lemma parseVal_num (f : Nat) (n : Int) (rest : List Char)
    (hrest : notDigitStart rest) :
    parseVal (f + 1) (intDigits n ++ rest) = some (.vint n, rest) := by
  cases n with
  | ofNat m =>
    obtain ⟨c, tl, hctl⟩ :=
      List.exists_cons_of_ne_nil (natDigitsAux_ne_nil (m + 1) m (by omega))
    have hcd : isDigit c = true :=
      natDigitsAux_digits (m + 1) m c (hctl ▸ List.mem_cons_self c tl)
    have htl : ∀ x ∈ tl, isDigit x = true := fun x hx =>
      natDigitsAux_digits (m + 1) m x (hctl ▸ List.mem_cons_of_mem c hx)
    have hval : parseDigitsAcc (tl ++ rest) (digitVal c) = (m, rest) := by
      rw [parseDigitsAcc_spec tl htl rest hrest (digitVal c)]
      have hfold := natDigits_foldl m
      rw [natDigits, hctl, List.foldl_cons] at hfold
      rw [show digitVal c = 0 * 10 + digitVal c by omega]
      rw [hfold]
    show parseVal (f + 1) (natDigitsAux (m + 1) m ++ rest) = _
    rw [hctl, List.cons_append, parseVal]
    rw [if_neg (isDigit_ne c 'n' hcd (by decide)),
      if_neg (isDigit_ne c 't' hcd (by decide)),
      if_neg (isDigit_ne c 'f' hcd (by decide)),
      if_neg (isDigit_ne c '"' hcd (by decide)),
      if_neg (isDigit_ne c '[' hcd (by decide)),
      if_neg (isDigit_ne c '\x7b' hcd (by decide)),
      if_neg (isDigit_ne c '-' hcd (by decide)),
      if_pos hcd, hval]
    rfl
  | negSucc m =>
    obtain ⟨c, tl, hctl⟩ :=
      List.exists_cons_of_ne_nil (natDigitsAux_ne_nil (m + 2) (m + 1) (by omega))
    have hcd : isDigit c = true :=
      natDigitsAux_digits (m + 2) (m + 1) c (hctl ▸ List.mem_cons_self c tl)
    have htl : ∀ x ∈ tl, isDigit x = true := fun x hx =>
      natDigitsAux_digits (m + 2) (m + 1) x (hctl ▸ List.mem_cons_of_mem c hx)
    have hval : parseDigitsAcc (tl ++ rest) (digitVal c) = (m + 1, rest) := by
      rw [parseDigitsAcc_spec tl htl rest hrest (digitVal c)]
      have hfold := natDigits_foldl (m + 1)
      rw [natDigits, hctl, List.foldl_cons] at hfold
      rw [show digitVal c = 0 * 10 + digitVal c by omega]
      rw [hfold]
    show parseVal (f + 1) (('-' :: natDigitsAux (m + 2) (m + 1)) ++ rest) = _
    rw [hctl, List.cons_append, List.cons_append, parseVal]
    rw [if_neg (by decide : ¬('-' = 'n')), if_neg (by decide : ¬('-' = 't')),
      if_neg (by decide : ¬('-' = 'f')), if_neg (by decide : ¬('-' = '"')),
      if_neg (by decide : ¬('-' = '[')), if_neg (by decide : ¬('-' = '\x7b')),
      if_pos rfl]
    rw [parseNeg, if_pos hcd, hval]
    show some (PyVal.vint (-((m + 1 : Nat) : Int)), rest) =
      some (PyVal.vint (Int.negSucc m), rest)
    have hns : -(((m + 1 : Nat)) : Int) = Int.negSucc m := by
      rw [Int.negSucc_eq]
      push_cast
      ring
    rw [hns]

lemma sizeVal_pos (v : PyVal) : 1 ≤ sizeVal v := by
  cases v <;> simp [sizeVal]

lemma sizeList_pos (xs : PyList) : 1 ≤ sizeList xs := by
  cases xs <;> simp [sizeList] <;> omega

lemma sizeDict_pos (kvs : PyDict) : 1 ≤ sizeDict kvs := by
  cases kvs <;> simp [sizeDict] <;> omega

lemma intDigits_len_pos (n : Int) : 1 ≤ (intDigits n).length := by
  cases n with
  | ofNat m =>
    have hne := natDigitsAux_ne_nil (m + 1) m (by omega)
    cases hc : natDigitsAux (m + 1) m with
    | nil => exact absurd hc hne
    | cons c tl => simp [intDigits, natDigits, hc]
  | negSucc m => simp [intDigits]

mutual
/-- Constructor-count fuel is bounded by twice the rendered length. -/
theorem sizeVal_le_render (v : PyVal) :
    sizeVal v ≤ 2 * (renderVal v).length := by
  cases v with
  | vnone => simp [sizeVal, renderVal]
  | vbool b => cases b <;> simp [sizeVal, renderVal]
  | vint n =>
    have h := intDigits_len_pos n
    simp only [sizeVal, renderVal]
    omega
  | vstr s => simp [sizeVal, renderVal]; omega
  | vlist xs =>
    cases xs with
    | nil => simp [sizeVal, sizeList, renderVal]
    | cons x xs =>
      have h1 := sizeVal_le_render x
      have h2 := sizeList_le_render xs
      simp only [sizeVal, sizeList, renderVal, List.length_cons,
        List.length_append, List.length_singleton]
      omega
  | vdict kvs =>
    cases kvs with
    | nil => simp [sizeVal, sizeDict, renderVal]
    | cons k v2 kvs =>
      have h1 := sizeVal_le_render v2
      have h2 := sizeDict_le_render kvs
      simp only [sizeVal, sizeDict, renderVal, List.length_cons,
        List.length_append, List.length_singleton]
      omega
theorem sizeList_le_render (xs : PyList) :
    sizeList xs ≤ 2 * (renderList xs).length + 2 := by
  cases xs with
  | nil => simp [sizeList, renderList]
  | cons x xs =>
    have h1 := sizeVal_le_render x
    have h2 := sizeList_le_render xs
    simp only [sizeList, renderList, List.length_cons, List.length_append]
    omega
theorem sizeDict_le_render (kvs : PyDict) :
    sizeDict kvs ≤ 2 * (renderDict kvs).length + 2 := by
  cases kvs with
  | nil => simp [sizeDict, renderDict]
  | cons k v2 kvs =>
    have h1 := sizeVal_le_render v2
    have h2 := sizeDict_le_render kvs
    simp only [sizeDict, renderDict, List.length_cons, List.length_append,
      List.length_singleton]
    omega
end

mutual
/-- The parser inverts the renderer on well-formed values (round-trip),
given fuel at least the constructor count and a follower that cannot
extend a digit run. -/
theorem parse_renderVal (v : PyVal) : ∀ (fuel : Nat) (rest : List Char),
    sizeVal v ≤ fuel → goodVal v = true → notDigitStart rest →
    parseVal fuel (renderVal v ++ rest) = some (v, rest) := by
  cases v with
  | vnone =>
    intro fuel rest hsz hg hr
    cases fuel with
    | zero => simp [sizeVal] at hsz
    | succ f => simp [renderVal, parseVal, parseKw3]
  | vbool b =>
    intro fuel rest hsz hg hr
    cases fuel with
    | zero => simp [sizeVal] at hsz
    | succ f => cases b <;> simp [renderVal, parseVal, parseKw3, parseKw4]
  | vint n =>
    intro fuel rest hsz hg hr
    cases fuel with
    | zero => simp [sizeVal] at hsz
    | succ f =>
      simp only [renderVal]
      exact parseVal_num f n rest hr
  | vstr s =>
    intro fuel rest hsz hg hr
    cases fuel with
    | zero => simp [sizeVal] at hsz
    | succ f =>
      have hgs : goodStr s = true := hg
      simp only [renderVal, List.cons_append, List.append_assoc,
        List.singleton_append, List.nil_append]
      rw [parseVal, if_neg (by decide : ¬('"' = 'n')),
        if_neg (by decide : ¬('"' = 't')), if_neg (by decide : ¬('"' = 'f')),
        if_pos rfl, parseStrBody_spec s hgs rest]
      rfl
  | vlist xs =>
    intro fuel rest hsz hg hr
    cases xs with
    | nil =>
      cases fuel with
      | zero => simp [sizeVal, sizeList] at hsz
      | succ f =>
        cases f with
        | zero => simp [sizeVal, sizeList] at hsz
        | succ g => simp [renderVal, parseVal, parseListBody]
    | cons x xs =>
      cases fuel with
      | zero => simp [sizeVal, sizeList] at hsz
      | succ f =>
        cases f with
        | zero => simp [sizeVal, sizeList] at hsz
        | succ g =>
          have hgx : goodVal x = true ∧ goodList xs = true := by
            simpa [goodVal, goodList, Bool.and_eq_true] using hg
          have hszx : sizeVal x ≤ g := by
            have hp := sizeList_pos xs
            simp only [sizeVal, sizeList] at hsz
            omega
          have hszxs : sizeList xs ≤ g := by
            have hp := sizeVal_pos x
            simp only [sizeVal, sizeList] at hsz
            omega
          have h1 : parseVal g (renderVal x ++ (renderList xs ++ ']' :: rest)) =
              some (x, renderList xs ++ ']' :: rest) :=
            parse_renderVal x g (renderList xs ++ ']' :: rest) hszx hgx.1
              (notDigitStart_renderList xs rest)
          have h2 : parseListTail g (renderList xs ++ ']' :: rest) =
              some (xs, rest) :=
            parse_renderList xs g rest hszxs hgx.2
          have hbody : parseListBody (g + 1)
              (renderVal x ++ (renderList xs ++ ']' :: rest)) =
              some (.cons x xs, rest) := by
            obtain ⟨c, tl, hctl, hc1, hc2⟩ := renderVal_head x
            rw [hctl] at h1 ⊢
            rw [List.cons_append] at h1 ⊢
            rw [parseListBody, if_neg hc1, h1, Option.some_bind]
            simp only [h2, Option.map_some']
          simp only [renderVal, List.cons_append, List.append_assoc,
            List.singleton_append, List.nil_append]
          rw [parseVal, if_neg (by decide : ¬('[' = 'n')),
            if_neg (by decide : ¬('[' = 't')),
            if_neg (by decide : ¬('[' = 'f')),
            if_neg (by decide : ¬('[' = '"')), if_pos rfl, hbody]
          rfl
  | vdict kvs =>
    intro fuel rest hsz hg hr
    cases kvs with
    | nil =>
      cases fuel with
      | zero => simp [sizeVal, sizeDict] at hsz
      | succ f =>
        cases f with
        | zero => simp [sizeVal, sizeDict] at hsz
        | succ g => simp [renderVal, parseVal, parseDictBody]
    | cons k v2 kvs =>
      cases fuel with
      | zero => simp [sizeVal, sizeDict] at hsz
      | succ f =>
        cases f with
        | zero => simp [sizeVal, sizeDict] at hsz
        | succ g =>
          have hgk : goodStr k = true := by
            have h := hg
            simp only [goodVal, goodDict, Bool.and_eq_true] at h
            exact h.1
          have hgv : goodVal v2 = true ∧ goodDict kvs = true := by
            have h := hg
            simp only [goodVal, goodDict, Bool.and_eq_true] at h
            exact h.2
          have hszv : sizeVal v2 ≤ g := by
            have hp := sizeDict_pos kvs
            simp only [sizeVal, sizeDict] at hsz
            omega
          have hszkvs : sizeDict kvs ≤ g := by
            have hp := sizeVal_pos v2
            simp only [sizeVal, sizeDict] at hsz
            omega
          have h1 : parseVal g (renderVal v2 ++ (renderDict kvs ++ '\x7d' :: rest)) =
              some (v2, renderDict kvs ++ '\x7d' :: rest) :=
            parse_renderVal v2 g (renderDict kvs ++ '\x7d' :: rest) hszv hgv.1
              (notDigitStart_renderDict kvs rest)
          have h2 : parseDictTail g (renderDict kvs ++ '\x7d' :: rest) =
              some (kvs, rest) :=
            parse_renderDict kvs g rest hszkvs hgv.2
          have hstr : parseStrBody
              (k.data ++ '"' :: ':' :: ' ' ::
                (renderVal v2 ++ (renderDict kvs ++ '\x7d' :: rest))) =
              some (k, ':' :: ' ' ::
                (renderVal v2 ++ (renderDict kvs ++ '\x7d' :: rest))) :=
            parseStrBody_spec k hgk _
          have hbody : parseDictBody (g + 1)
              ('"' :: (k.data ++ '"' :: ':' :: ' ' ::
                (renderVal v2 ++ (renderDict kvs ++ '\x7d' :: rest)))) =
              some (.cons k v2 kvs, rest) := by
            rw [parseDictBody, if_neg (by decide : ¬('"' = '\x7d')),
              if_pos rfl, hstr, Option.some_bind]
            dsimp only
            rw [if_pos ⟨rfl, rfl⟩, h1, Option.some_bind]
            simp only [h2, Option.map_some']
          simp only [renderVal, List.cons_append, List.append_assoc,
            List.singleton_append, List.nil_append]
          rw [parseVal, if_neg (by decide : ¬('\x7b' = 'n')),
            if_neg (by decide : ¬('\x7b' = 't')),
            if_neg (by decide : ¬('\x7b' = 'f')),
            if_neg (by decide : ¬('\x7b' = '"')),
            if_neg (by decide : ¬('\x7b' = '[')), if_pos rfl]
          rw [show ('"' :: (k.data ++ ('"' :: ':' :: ' ' ::
            (renderVal v2 ++ (renderDict kvs ++ '\x7d' :: rest)))))
            = '"' :: (k.data ++ '"' :: ':' :: ' ' ::
            (renderVal v2 ++ (renderDict kvs ++ '\x7d' :: rest))) from rfl]
          rw [hbody]
          rfl
theorem parse_renderList (xs : PyList) : ∀ (fuel : Nat) (rest : List Char),
    sizeList xs ≤ fuel → goodList xs = true →
    parseListTail fuel (renderList xs ++ ']' :: rest) = some (xs, rest) := by
  cases xs with
  | nil =>
    intro fuel rest hsz hg
    cases fuel with
    | zero => simp [sizeList] at hsz
    | succ f => simp [renderList, parseListTail]
  | cons x xs =>
    intro fuel rest hsz hg
    cases fuel with
    | zero => simp [sizeList] at hsz
    | succ f =>
      have hgx : goodVal x = true ∧ goodList xs = true := by
        simpa [goodList, Bool.and_eq_true] using hg
      have hszx : sizeVal x ≤ f := by
        have hp := sizeList_pos xs
        simp only [sizeList] at hsz
        omega
      have hszxs : sizeList xs ≤ f := by
        have hp := sizeVal_pos x
        simp only [sizeList] at hsz
        omega
      have h1 : parseVal f (renderVal x ++ (renderList xs ++ ']' :: rest)) =
          some (x, renderList xs ++ ']' :: rest) :=
        parse_renderVal x f (renderList xs ++ ']' :: rest) hszx hgx.1
          (notDigitStart_renderList xs rest)
      have h2 : parseListTail f (renderList xs ++ ']' :: rest) =
          some (xs, rest) :=
        parse_renderList xs f rest hszxs hgx.2
      simp only [renderList, List.cons_append, List.append_assoc,
        List.nil_append]
      rw [parseListTail, if_neg (by decide : ¬(',' = ']')), if_pos rfl]
      rw [if_pos rfl, h1, Option.some_bind]
      simp only [h2, Option.map_some']
theorem parse_renderDict (kvs : PyDict) : ∀ (fuel : Nat) (rest : List Char),
    sizeDict kvs ≤ fuel → goodDict kvs = true →
    parseDictTail fuel (renderDict kvs ++ '\x7d' :: rest) = some (kvs, rest) := by
  cases kvs with
  | nil =>
    intro fuel rest hsz hg
    cases fuel with
    | zero => simp [sizeDict] at hsz
    | succ f => simp [renderDict, parseDictTail]
  | cons k v2 kvs =>
    intro fuel rest hsz hg
    cases fuel with
    | zero => simp [sizeDict] at hsz
    | succ f =>
      have hgk : goodStr k = true := by
        have h := hg
        simp only [goodDict, Bool.and_eq_true] at h
        exact h.1
      have hgv : goodVal v2 = true ∧ goodDict kvs = true := by
        have h := hg
        simp only [goodDict, Bool.and_eq_true] at h
        exact h.2
      have hszv : sizeVal v2 ≤ f := by
        have hp := sizeDict_pos kvs
        simp only [sizeDict] at hsz
        omega
      have hszkvs : sizeDict kvs ≤ f := by
        have hp := sizeVal_pos v2
        simp only [sizeDict] at hsz
        omega
      have h1 : parseVal f (renderVal v2 ++ (renderDict kvs ++ '\x7d' :: rest)) =
          some (v2, renderDict kvs ++ '\x7d' :: rest) :=
        parse_renderVal v2 f (renderDict kvs ++ '\x7d' :: rest) hszv hgv.1
          (notDigitStart_renderDict kvs rest)
      have h2 : parseDictTail f (renderDict kvs ++ '\x7d' :: rest) =
          some (kvs, rest) :=
        parse_renderDict kvs f rest hszkvs hgv.2
      have hstr : parseStrBody
          (k.data ++ '"' :: ':' :: ' ' ::
            (renderVal v2 ++ (renderDict kvs ++ '\x7d' :: rest))) =
          some (k, ':' :: ' ' ::
            (renderVal v2 ++ (renderDict kvs ++ '\x7d' :: rest))) :=
        parseStrBody_spec k hgk _
      simp only [renderDict, List.cons_append, List.append_assoc,
        List.singleton_append, List.nil_append]
      rw [parseDictTail, if_neg (by decide : ¬(',' = '\x7d')), if_pos rfl]
      rw [if_pos ⟨rfl, rfl⟩, hstr, Option.some_bind]
      dsimp only
      rw [if_pos ⟨rfl, rfl⟩, h1, Option.some_bind]
      simp only [h2, Option.map_some']
end

/-- `json.loads (json.dumps v)` is the identity on well-formed values
(no key sorting). -/
theorem jsonLoads_jsonDumps (v : PyVal) (h : goodVal v = true) :
    jsonLoads (jsonDumps false v) = some v := by
  have h1 : parseVal (2 * (renderVal v).length + 2) (renderVal v ++ []) =
      some (v, []) :=
    parse_renderVal v _ [] (le_trans (sizeVal_le_render v) (by omega)) h trivial
  rw [List.append_nil] at h1
  rw [jsonDumps, jsonLoads]
  simp only [if_neg Bool.false_ne_true]
  show (match parseVal (2 * (renderVal v).length + 2) (renderVal v) with
    | some (w, []) => some w
    | _ => none) = some v
  rw [h1]

/-- Digit characters are printable, non-quote, non-backslash. -/
lemma goodChar_of_digit (c : Char) (h : isDigit c = true) :
    (32 ≤ c.toNat ∧ c.toNat ≤ 126 ∧ c ≠ '"' ∧ c ≠ '\\') := by
  simp only [isDigit, decide_eq_true_eq] at h
  refine ⟨by omega, by omega, ?_, ?_⟩
  · intro he
    exact absurd (he ▸ h) (by decide)
  · intro he
    exact absurd (he ▸ h) (by decide)

/-- A decimal-rendered integer is a well-formed JSON string body. -/
lemma goodStr_intStr (n : Int) : goodStr (intStr n) = true := by
  rw [goodStr, List.all_eq_true]
  intro c hc
  have hc2 : c ∈ intDigits n := hc
  rw [decide_eq_true_eq]
  cases n with
  | ofNat m =>
    exact goodChar_of_digit c (natDigitsAux_digits (m + 1) m c hc2)
  | negSucc m =>
    rcases List.mem_cons.mp hc2 with h | h
    · subst h
      decide
    · exact goodChar_of_digit c (natDigitsAux_digits (m + 2) (m + 1) c h)

/-- `int(str(n)) = n` for the decimal rendering. -/
lemma parseIntStr_intStr (n : Int) : parseIntStr (intStr n) = some n := by
  cases n with
  | ofNat m =>
    obtain ⟨c, tl, hctl⟩ :=
      List.exists_cons_of_ne_nil (natDigitsAux_ne_nil (m + 1) m (by omega))
    have hcd : isDigit c = true :=
      natDigitsAux_digits (m + 1) m c (hctl ▸ List.mem_cons_self c tl)
    have htl : ∀ x ∈ tl, isDigit x = true := fun x hx =>
      natDigitsAux_digits (m + 1) m x (hctl ▸ List.mem_cons_of_mem c hx)
    have hval : parseDigitsAcc tl (digitVal c) = (m, []) := by
      have h := parseDigitsAcc_spec tl htl [] trivial (digitVal c)
      rw [List.append_nil] at h
      rw [h]
      have hfold := natDigits_foldl m
      rw [natDigits, hctl, List.foldl_cons] at hfold
      rw [show digitVal c = 0 * 10 + digitVal c by omega]
      rw [hfold]
    show parseIntStr ⟨natDigitsAux (m + 1) m⟩ = some (Int.ofNat m)
    rw [hctl, parseIntStr]
    show (if c = '-' then _ else _) = _
    rw [if_neg (isDigit_ne c '-' hcd (by decide)), if_pos hcd, hval]
    rfl
  | negSucc m =>
    obtain ⟨c, tl, hctl⟩ :=
      List.exists_cons_of_ne_nil (natDigitsAux_ne_nil (m + 2) (m + 1) (by omega))
    have hcd : isDigit c = true :=
      natDigitsAux_digits (m + 2) (m + 1) c (hctl ▸ List.mem_cons_self c tl)
    have htl : ∀ x ∈ tl, isDigit x = true := fun x hx =>
      natDigitsAux_digits (m + 2) (m + 1) x (hctl ▸ List.mem_cons_of_mem c hx)
    have hval : parseDigitsAcc tl (digitVal c) = (m + 1, []) := by
      have h := parseDigitsAcc_spec tl htl [] trivial (digitVal c)
      rw [List.append_nil] at h
      rw [h]
      have hfold := natDigits_foldl (m + 1)
      rw [natDigits, hctl, List.foldl_cons] at hfold
      rw [show digitVal c = 0 * 10 + digitVal c by omega]
      rw [hfold]
    show parseIntStr ⟨'-' :: natDigitsAux (m + 2) (m + 1)⟩ = some (Int.negSucc m)
    rw [hctl, parseIntStr]
    show (if ('-' : Char) = '-' then _ else _) = _
    rw [if_pos rfl]
    show (if isDigit c = true then _ else _) = _
    rw [if_pos hcd, hval]
    show some (-(((m + 1 : Nat)) : Int)) = some (Int.negSucc m)
    have hns : -(((m + 1 : Nat)) : Int) = Int.negSucc m := by
      rw [Int.negSucc_eq]
      push_cast
      ring
    rw [hns]

/-- Python dict lookup on a parsed JSON object (first binding wins;
parsed objects have distinct keys). -/
def dictFind : PyDict → String → Option PyVal
  | .nil, _ => none
  | .cons k v rest, key => if k = key then some v else dictFind rest key

/-! ### Canonicalization (`sort_keys=True`) determinism -/

/-- Entry list of a `PyDict` (insertion order). -/
def entriesD : PyDict → List (String × PyVal)
  | .nil => []
  | .cons k v rest => (k, v) :: entriesD rest

/-- Key list of a `PyDict` (insertion order). -/
def keysD (d : PyDict) : List String := (entriesD d).map Prod.fst

/-- Strict key order on entries. -/
def entLT (p q : String × PyVal) : Prop := p.1 < q.1

lemma entriesD_inj : ∀ (d1 d2 : PyDict), entriesD d1 = entriesD d2 → d1 = d2
  | .nil, .nil, _ => rfl
  | .nil, .cons _ _ _, h => by simp [entriesD] at h
  | .cons _ _ _, .nil, h => by simp [entriesD] at h
  | .cons k1 v1 r1, .cons k2 v2 r2, h => by
    simp only [entriesD, List.cons.injEq, Prod.mk.injEq] at h
    rw [h.1.1, h.1.2, entriesD_inj r1 r2 h.2]

lemma perm_insertDict (k : String) (v : PyVal) : ∀ (d : PyDict),
    List.Perm (entriesD (insertDict k v d)) ((k, v) :: entriesD d)
  | .nil => List.Perm.refl _
  | .cons k2 v2 rest => by
    rw [insertDict]
    by_cases h : k < k2
    · rw [if_pos h]
      exact List.Perm.refl _
    · rw [if_neg h]
      exact ((perm_insertDict k v rest).cons (k2, v2)).trans
        (List.Perm.swap (k, v) (k2, v2) (entriesD rest))

lemma perm_sortDictEntries : ∀ (d : PyDict),
    List.Perm (entriesD (sortDictEntries d))
      ((entriesD d).map (fun p => (p.1, sortVal p.2)))
  | .nil => List.Perm.refl _
  | .cons k v rest => by
    rw [sortDictEntries]
    exact (perm_insertDict k (sortVal v) (sortDictEntries rest)).trans
      ((perm_sortDictEntries rest).cons (k, sortVal v))

lemma sorted_insertDict (k : String) (v : PyVal) : ∀ (d : PyDict),
    List.Sorted entLT (entriesD d) → (∀ p ∈ entriesD d, p.1 ≠ k) →
    List.Sorted entLT (entriesD (insertDict k v d))
  | .nil, _, _ => by simp [insertDict, entriesD]
  | .cons k2 v2 rest, hs, hk => by
    have hs2 : (∀ b ∈ entriesD rest, entLT (k2, v2) b) ∧
        List.Sorted entLT (entriesD rest) := by
      rw [show entriesD (.cons k2 v2 rest) = (k2, v2) :: entriesD rest from rfl,
        List.sorted_cons] at hs
      exact hs
    rw [insertDict]
    by_cases h : k < k2
    · rw [if_pos h]
      rw [show entriesD (.cons k v (.cons k2 v2 rest)) =
        (k, v) :: (k2, v2) :: entriesD rest from rfl, List.sorted_cons]
      refine ⟨?_, ?_⟩
      · intro b hb
        rcases List.mem_cons.mp hb with hb | hb
        · rw [hb]
          exact h
        · exact lt_trans h (hs2.1 b hb)
      · rw [List.sorted_cons]
        exact hs2
    · rw [if_neg h]
      have hne : k2 ≠ k := hk (k2, v2) (List.mem_cons_self _ _)
      have hk2 : k2 < k := lt_of_le_of_ne (le_of_not_lt h) hne
      rw [show entriesD (.cons k2 v2 (insertDict k v rest)) =
        (k2, v2) :: entriesD (insertDict k v rest) from rfl, List.sorted_cons]
      refine ⟨?_, ?_⟩
      · intro b hb
        have hb2 : b ∈ (k, v) :: entriesD rest :=
          (perm_insertDict k v rest).mem_iff.mp hb
        rcases List.mem_cons.mp hb2 with hb2 | hb2
        · rw [hb2]
          exact hk2
        · exact hs2.1 b hb2
      · exact sorted_insertDict k v rest hs2.2
          (fun p hp => hk p (List.mem_cons_of_mem _ hp))

lemma sorted_sortDictEntries : ∀ (d : PyDict), (keysD d).Nodup →
    List.Sorted entLT (entriesD (sortDictEntries d))
  | .nil, _ => by simp [sortDictEntries, entriesD]
  | .cons k v rest, hnd => by
    have hnd2 : ¬ k ∈ keysD rest ∧ (keysD rest).Nodup := by
      rw [show keysD (.cons k v rest) = k :: keysD rest from rfl,
        List.nodup_cons] at hnd
      exact hnd
    rw [sortDictEntries]
    apply sorted_insertDict
    · exact sorted_sortDictEntries rest hnd2.2
    · intro p hp hpk
      have hp2 : p ∈ (entriesD rest).map (fun q => (q.1, sortVal q.2)) :=
        (perm_sortDictEntries rest).mem_iff.mp hp
      obtain ⟨q, hq, hqe⟩ := List.mem_map.mp hp2
      have hq1 : q.1 = p.1 := by
        rw [← hqe]
      exact hnd2.1 (by
        rw [keysD]
        exact List.mem_map.mpr ⟨q, hq, by rw [hq1, hpk]⟩)

/-- Key sorting is insensitive to the insertion order of a
duplicate-free mapping. -/
lemma sortDictEntries_perm_eq (d1 d2 : PyDict)
    (hnd : (keysD d1).Nodup) (hperm : List.Perm (entriesD d1) (entriesD d2)) :
    sortDictEntries d1 = sortDictEntries d2 := by
  have hkp : List.Perm (keysD d2) (keysD d1) := (hperm.map Prod.fst).symm
  have hnd2 : (keysD d2).Nodup := hkp.nodup_iff.mpr hnd
  have hp : List.Perm (entriesD (sortDictEntries d1))
      (entriesD (sortDictEntries d2)) :=
    (perm_sortDictEntries d1).trans
      (((hperm.map (fun p => (p.1, sortVal p.2)))).trans
        (perm_sortDictEntries d2).symm)
  have hs1 := sorted_sortDictEntries d1 hnd
  have hs2 := sorted_sortDictEntries d2 hnd2
  haveI : IsAntisymm (String × PyVal) entLT :=
    ⟨fun a b h1 h2 => absurd (lt_trans h1 h2) (lt_irrefl _)⟩
  exact entriesD_inj _ _ (List.eq_of_perm_of_sorted hp hs1 hs2)

end JsonM

/-! ### MD5 (`hashlib.md5(...).hexdigest()` on UTF-8 bytes) -/

namespace MD5

/-- UTF-8 encoding of one scalar value. -/
def charUtf8 (c : Char) : List Nat :=
  let n := c.toNat
  if n < 128 then [n]
  else if n < 2048 then [192 + n / 64, 128 + n % 64]
  else if n < 65536 then [224 + n / 4096, 128 + (n / 64) % 64, 128 + n % 64]
  else [240 + n / 262144, 128 + (n / 4096) % 64, 128 + (n / 64) % 64,
    128 + n % 64]

/-- `str.encode()`: UTF-8 bytes of a string. -/
def strUtf8 (s : String) : List Nat := (s.data.map charUtf8).flatten

/-- Per-step sine-derived constants `K[i] = floor(2^32 * abs(sin (i+1)))`. -/
def K : List Nat :=
  [3614090360, 3905402710, 606105819, 3250441966, 4118548399, 1200080426,
   2821735955, 4249261313, 1770035416, 2336552879, 4294925233, 2304563134,
   1804603682, 4254626195, 2792965006, 1236535329, 4129170786, 3225465664,
   643717713, 3921069994, 3593408605, 38016083, 3634488961, 3889429448,
   568446438, 3275163606, 4107603335, 1163531501, 2850285829, 4243563512,
   1735328473, 2368359562, 4294588738, 2272392833, 1839030562, 4259657740,
   2763975236, 1272893353, 4139469664, 3200236656, 681279174, 3936430074,
   3572445317, 76029189, 3654602809, 3873151461, 530742520, 3299628645,
   4096336452, 1126891415, 2878612391, 4237533241, 1700485571, 2399980690,
   4293915773, 2240044497, 1873313359, 4264355552, 2734768916, 1309151649,
   4149444226, 3174756917, 718787259, 3951481745]

/-- Per-step left-rotation amounts. -/
def S : List Nat :=
  [7, 12, 17, 22, 7, 12, 17, 22, 7, 12, 17, 22, 7, 12, 17, 22, 5, 9, 14, 20,
   5, 9, 14, 20, 5, 9, 14, 20, 5, 9, 14, 20, 4, 11, 16, 23, 4, 11, 16, 23, 4,
   11, 16, 23, 4, 11, 16, 23, 6, 10, 15, 21, 6, 10, 15, 21, 6, 10, 15, 21, 6,
   10, 15, 21]

def M32 : Nat := 4294967296

/-- 32-bit left rotation on a word `x < 2^32`. -/
def rotl (x n : Nat) : Nat := (x * 2 ^ n + x / 2 ^ (32 - n)) % M32

/-- 32-bit complement on a word `x < 2^32`. -/
def bnot32 (x : Nat) : Nat := 4294967295 - x % M32

def mixF (b c d : Nat) : Nat := (b &&& c) ||| (bnot32 b &&& d)
def mixG (b c d : Nat) : Nat := (d &&& b) ||| (bnot32 d &&& c)
def mixH (b c d : Nat) : Nat := b ^^^ c ^^^ d
def mixI (b c d : Nat) : Nat := c ^^^ (b ||| bnot32 d)

/-- Little-endian bytes of a number, fixed width. -/
def leBytes : Nat → Nat → List Nat
  | 0, _ => []
  | k + 1, n => n % 256 :: leBytes k (n / 256)

/-- Merkle-Damgard padding: `0x80`, zeros to 56 mod 64, 8-byte LE bit
length. -/
def padMsg (msg : List Nat) : List Nat :=
  let len := msg.length
  let z := (64 + 56 - (len + 1) % 64) % 64
  msg ++ 128 :: List.replicate z 0 ++ leBytes 8 ((8 * len) % 2 ^ 64)

/-- Little-endian 32-bit words of a byte list. -/
def toWords : List Nat → List Nat
  | b0 :: b1 :: b2 :: b3 :: rest =>
    (b0 + 256 * (b1 + 256 * (b2 + 256 * b3))) :: toWords rest
  | _ => []

/-- One of the 64 MD5 steps on the register file `(a, b, c, d)`. -/
def md5Step (Mw : List Nat) (st : Nat × Nat × Nat × Nat) (i : Nat) :
    Nat × Nat × Nat × Nat :=
  let a := st.1
  let b := st.2.1
  let c := st.2.2.1
  let d := st.2.2.2
  let f :=
    if i < 16 then mixF b c d
    else if i < 32 then mixG b c d
    else if i < 48 then mixH b c d
    else mixI b c d
  let g :=
    if i < 16 then i
    else if i < 32 then (5 * i + 1) % 16
    else if i < 48 then (3 * i + 5) % 16
    else (7 * i) % 16
  let rot := rotl ((a + f + K.getD i 0 + Mw.getD g 0) % M32) (S.getD i 0)
  (d, (b + rot) % M32, b, c)

/-- All 64 steps of one block. -/
def md5Rounds (Mw : List Nat) (st : Nat × Nat × Nat × Nat) :
    Nat × Nat × Nat × Nat :=
  (List.range 64).foldl (md5Step Mw) st

/-- Process the 64-byte blocks (fuel-bounded; the byte count suffices). -/
def processBlocksAux : Nat → List Nat → Nat × Nat × Nat × Nat →
    Nat × Nat × Nat × Nat
  | 0, _, st => st
  | fuel + 1, bytes, st =>
    match bytes with
    | [] => st
    | _ =>
      let r := md5Rounds (toWords (bytes.take 64)) st
      processBlocksAux fuel (bytes.drop 64)
        ((st.1 + r.1) % M32, (st.2.1 + r.2.1) % M32,
         (st.2.2.1 + r.2.2.1) % M32, (st.2.2.2 + r.2.2.2) % M32)

def hexDigit (n : Nat) : Char :=
  if n < 10 then Char.ofNat (48 + n) else Char.ofNat (87 + n)

def byteHex (b : Nat) : List Char := [hexDigit (b / 16), hexDigit (b % 16)]

/-- Hex rendering of one word, least-significant byte first. -/
def wordLEHex (w : Nat) : List Char :=
  byteHex (w % 256) ++ byteHex (w / 256 % 256) ++ byteHex (w / 65536 % 256) ++
    byteHex (w / 16777216 % 256)

/-- `hashlib.md5(s.encode()).hexdigest()`. -/
def md5hex (s : String) : String :=
  let msg := padMsg (strUtf8 s)
  let r := processBlocksAux msg.length msg
    (1732584193, 4023233417, 2562383102, 271733878)
  ⟨wordLEHex r.1 ++ wordLEHex r.2.1 ++ wordLEHex r.2.2.1 ++
    wordLEHex r.2.2.2⟩

end MD5

/-! ## Layered cache (`app/services/replit_cache.py`, `ReplitCacheManager`) -/

namespace CacheM
open JsonM

/-- Insertion-ordered dict lookup (`k in m` / `m[k]`). -/
def lookupKV {α : Type} (m : List (String × α)) (k : String) : Option α :=
  (m.find? (fun p => p.1 = k)).map (·.2)

/-- Python dict assignment `m[k] = v`: update in place, else append. -/
def setKV {α : Type} (m : List (String × α)) (k : String) (v : α) :
    List (String × α) :=
  if (m.find? (fun p => p.1 = k)).isSome
  then m.map (fun p => if p.1 = k then (k, v) else p)
  else m ++ [(k, v)]

/-- Python `del m[k]`. -/
def delKV {α : Type} (m : List (String × α)) (k : String) :
    List (String × α) :=
  m.filter (fun p => ¬ p.1 = k)

/-- `ReplitCacheManager` state: `self.memory_cache` (cache-item dicts),
the Replit DB (serialized strings under `"cache:"` keys), the
`REPLIT_DB_AVAILABLE and db is not None` flag, `self._last_cleanup`.
`max_memory_items = 1000` and `_cleanup_interval = 300` are inlined. -/
structure CMState where
  memory_cache : List (String × PyDict)
  db : List (String × String)
  dbAvailable : Bool
  last_cleanup : Int

/-- The `cache_item` dict built by `set` (timestamps in the
integer-instant isoformat encoding). -/
def cache_item_of (v : PyVal) (now ttl : Int) : PyDict :=
  .cons "value" v (.cons "created_at" (.vstr (intStr now))
    (.cons "expires_at" (.vstr (intStr (now + ttl)))
      (.cons "ttl" (.vint ttl) .nil)))

/-- `_is_expired`: absent `expires_at` is never expired; an unparsable
or wrongly-typed one is always expired; otherwise strictly after the
instant. -/
def is_expired (item : PyDict) (now : Int) : Bool :=
  match dictFind item "expires_at" with
  | none => false
  | some (.vstr s) =>
    match parseIntStr s with
    | some e => decide (e < now)
    | none => true
  | some _ => true

/-- `item.get('created_at', '')` as a sort key (string comparison). -/
def createdKey (item : PyDict) : String :=
  match dictFind item "created_at" with
  | some (.vstr s) => s
  | _ => ""

/-- `_cleanup_memory`: 5-minute interval guard; drop expired items;
above 1000 items keep the 1000 most recently created (stable descending
sort on the `created_at` string). -/
def cleanup_memory (s : CMState) (now : Int) : CMState :=
  if now - s.last_cleanup < 300 then s
  else
    let m1 := s.memory_cache.filter (fun p => is_expired p.2 now = false)
    let m2 :=
      if m1.length > 1000 then
        (m1.mergeSort (fun a b => decide (createdKey b.2 ≤ createdKey a.2))).take
          1000
      else m1
    { s with
        memory_cache := m2
        last_cleanup := now }

/-- `ReplitCacheManager.set` (every `PyVal` is JSON-serializable, so the
pickle branch is never taken; durable write only when the DB is
available). -/
def cache_set (s : CMState) (key : String) (v : PyVal) (ttl : Int)
    (now : Int) : CMState × Bool :=
  let item := cache_item_of v now ttl
  let m1 := setKV s.memory_cache key item
  let db1 :=
    if s.dbAvailable then
      setKV s.db ("cache:" ++ key) (jsonDumps false (.vdict item))
    else s.db
  (cleanup_memory
    { s with
        memory_cache := m1
        db := db1 } now, true)

/-- Durable-tier half of `ReplitCacheManager.get`: deserialize, check
expiry, promote to memory on a fresh hit, delete an expired or
corrupted record. -/
def cache_get_db (s : CMState) (key : String) (now : Int) :
    CMState × Option PyVal :=
  if s.dbAvailable then
    match lookupKV s.db ("cache:" ++ key) with
    | some ser =>
      match jsonLoads ser with
      | some (.vdict item) =>
        if is_expired item now = false then
          ({ s with memory_cache := setKV s.memory_cache key item },
            dictFind item "value")
        else ({ s with db := delKV s.db ("cache:" ++ key) }, none)
      | _ => ({ s with db := delKV s.db ("cache:" ++ key) }, none)
    | none => (s, none)
  else (s, none)

/-- `ReplitCacheManager.get`: memory tier first (expired hit is deleted
and falls through), then the durable tier. -/
def cache_get (s : CMState) (key : String) (now : Int) :
    CMState × Option PyVal :=
  match lookupKV s.memory_cache key with
  | some item =>
    if is_expired item now = false then (s, dictFind item "value")
    else
      cache_get_db { s with memory_cache := delKV s.memory_cache key } key now
  | none => cache_get_db s key now

/-- `ReplitCacheManager.generate_cache_key`. -/
def generate_cache_key (file_hash engine : String) (options : PyDict) :
    String :=
  "pdf_result:" ++
    MD5.md5hex (file_hash ++ ":" ++ engine ++ ":" ++
      jsonDumps true (.vdict options))

lemma find?_map_set {α : Type} (k : String) (v : α) :
    ∀ (m : List (String × α)),
    (m.find? (fun p => p.1 = k)).isSome = true →
    (m.map (fun p => if p.1 = k then (k, v) else p)).find?
      (fun p => p.1 = k) = some (k, v)
  | [], h => by simp [List.find?] at h
  | p :: rest, h => by
    rw [List.map_cons]
    by_cases hp : p.1 = k
    · rw [if_pos hp]
      simp [List.find?_cons]
    · rw [if_neg hp]
      have h2 : (rest.find? (fun p => p.1 = k)).isSome = true := by
        simpa [List.find?_cons, hp] using h
      simpa [List.find?_cons, hp] using find?_map_set k v rest h2

lemma lookupKV_setKV {α : Type} (m : List (String × α)) (k : String)
    (v : α) : lookupKV (setKV m k v) k = some v := by
  rw [setKV]
  by_cases h : (m.find? (fun p => p.1 = k)).isSome = true
  · rw [if_pos h, lookupKV, find?_map_set k v m h]
    rfl
  · rw [if_neg h, lookupKV]
    have hn : m.find? (fun p => p.1 = k) = none := by
      cases hf : m.find? (fun p => p.1 = k) with
      | none => rfl
      | some x =>
        rw [hf] at h
        simp at h
    rw [List.find?_append, hn]
    simp [List.find?]

lemma dictFind_item_value (v : PyVal) (t ttl : Int) :
    dictFind (cache_item_of v t ttl) "value" = some v := by
  rw [cache_item_of, dictFind, if_pos rfl]

lemma dictFind_item_expires (v : PyVal) (t ttl : Int) :
    dictFind (cache_item_of v t ttl) "expires_at" =
      some (.vstr (intStr (t + ttl))) := by
  rw [cache_item_of, dictFind, if_neg (by decide : ¬("value" = "expires_at")),
    dictFind, if_neg (by decide : ¬("created_at" = "expires_at")),
    dictFind, if_pos rfl]

lemma is_expired_cache_item (v : PyVal) (t ttl now : Int) :
    is_expired (cache_item_of v t ttl) now = decide (t + ttl < now) := by
  rw [is_expired, dictFind_item_expires]
  dsimp only
  rw [parseIntStr_intStr]

lemma good_cache_item (v : PyVal) (hg : goodVal v = true) (t ttl : Int) :
    goodVal (.vdict (cache_item_of v t ttl)) = true := by
  show goodDict (cache_item_of v t ttl) = true
  rw [cache_item_of]
  simp only [goodDict, goodVal, Bool.and_eq_true]
  exact ⟨by decide, hg, by decide, goodStr_intStr t, by decide,
    goodStr_intStr (t + ttl), by decide, trivial, trivial⟩

lemma cleanup_memory_inert (s : CMState) (now : Int)
    (h : now - s.last_cleanup < 300) : cleanup_memory s now = s := by
  rw [cleanup_memory, if_pos h]

lemma cache_set_state (s0 : CMState) (key : String) (v : PyVal)
    (ttl t0 : Int) (hcl : t0 - s0.last_cleanup < 300) :
    (cache_set s0 key v ttl t0).1 =
      { s0 with
          memory_cache := setKV s0.memory_cache key (cache_item_of v t0 ttl)
          db := if s0.dbAvailable then
              setKV s0.db ("cache:" ++ key)
                (jsonDumps false (.vdict (cache_item_of v t0 ttl)))
            else s0.db } := by
  simp only [cache_set]
  exact cleanup_memory_inert _ _ hcl

lemma cache_get_memory_fresh (s0 : CMState) (key : String) (v : PyVal)
    (ttl t0 t1 : Int) (hcl : t0 - s0.last_cleanup < 300)
    (ht1 : t1 ≤ t0 + ttl) :
    (cache_get (cache_set s0 key v ttl t0).1 key t1).2 = some v := by
  have hexp : is_expired (cache_item_of v t0 ttl) t1 = false := by
    rw [is_expired_cache_item, decide_eq_false_iff_not]
    omega
  rw [cache_set_state s0 key v ttl t0 hcl]
  simp only [cache_get, lookupKV_setKV, hexp, dictFind_item_value, if_true]

lemma cache_get_durable_fresh (s0 : CMState) (key : String) (v : PyVal)
    (ttl t0 t1 : Int) (m2 : List (String × PyDict))
    (hcl : t0 - s0.last_cleanup < 300) (hg : goodVal v = true)
    (ht1 : t1 ≤ t0 + ttl) (hm : lookupKV m2 key = none)
    (hdb : s0.dbAvailable = true) :
    (cache_get
      { (cache_set s0 key v ttl t0).1 with memory_cache := m2 }
      key t1).2 = some v := by
  have hexp : is_expired (cache_item_of v t0 ttl) t1 = false := by
    rw [is_expired_cache_item, decide_eq_false_iff_not]
    omega
  have hload := jsonLoads_jsonDumps (.vdict (cache_item_of v t0 ttl))
    (good_cache_item v hg t0 ttl)
  rw [cache_set_state s0 key v ttl t0 hcl]
  simp only [cache_get, cache_get_db, hm, hdb, lookupKV_setKV, hload, hexp,
    dictFind_item_value, if_true]

lemma cache_get_expired (s0 : CMState) (key : String) (v : PyVal)
    (ttl t0 t2 : Int) (hcl : t0 - s0.last_cleanup < 300)
    (hg : goodVal v = true) (ht2 : t0 + ttl < t2) :
    (cache_get (cache_set s0 key v ttl t0).1 key t2).2 = none := by
  have hexp : is_expired (cache_item_of v t0 ttl) t2 = true := by
    rw [is_expired_cache_item, decide_eq_true_eq]
    exact ht2
  have hload := jsonLoads_jsonDumps (.vdict (cache_item_of v t0 ttl))
    (good_cache_item v hg t0 ttl)
  rw [cache_set_state s0 key v ttl t0 hcl]
  cases hdb : s0.dbAvailable with
  | true =>
    simp only [cache_get, cache_get_db, hdb, lookupKV_setKV, hload, hexp]
    simp [lookupKV_setKV, hload, hexp]
  | false =>
    simp only [cache_get, cache_get_db, hdb, lookupKV_setKV, hload, hexp]
    simp [lookupKV_setKV, hload, hexp]

/-- C5: for every stored key, every well-formed value in the embedded
value space (primitives and arbitrarily nested mappings and sequences,
with escape-free strings), and every `ttl > 0`, starting from any state
whose periodic memory cleanup is not yet due: after
`set(key, v, ttl)` at `t0`, a `get(key)` at any `t1 ≤ t0 + ttl` returns
`v` unchanged from the memory tier; with the memory tier holding no
entry for the key and the durable tier available, the same `get`
decodes and returns `v` unchanged from the durable tier; and a
`get(key)` at any `t2 > t0 + ttl` returns absent. -/
theorem C5_cache_roundtrip (s0 : CMState) (key : String) (v : PyVal)
    (ttl t0 : Int) (hg : goodVal v = true) (httl : 0 < ttl)
    (hcl : t0 - s0.last_cleanup < 300) :
    (∀ t1 : Int, t1 ≤ t0 + ttl →
      (cache_get (cache_set s0 key v ttl t0).1 key t1).2 = some v) ∧
    (∀ (t1 : Int) (m2 : List (String × PyDict)), t1 ≤ t0 + ttl →
      lookupKV m2 key = none → s0.dbAvailable = true →
      (cache_get { (cache_set s0 key v ttl t0).1 with memory_cache := m2 }
        key t1).2 = some v) ∧
    (∀ t2 : Int, t0 + ttl < t2 →
      (cache_get (cache_set s0 key v ttl t0).1 key t2).2 = none) :=
  ⟨fun t1 ht1 => cache_get_memory_fresh s0 key v ttl t0 t1 hcl ht1,
   fun t1 m2 ht1 hm hdb =>
     cache_get_durable_fresh s0 key v ttl t0 t1 m2 hcl hg ht1 hm hdb,
   fun t2 ht2 => cache_get_expired s0 key v ttl t0 t2 hcl hg ht2⟩

/-- Witness for C5 at a concrete nested value and concrete times. -/
theorem C5_cache_roundtrip_w :
    goodVal (.vdict (.cons "a"
      (.vlist (.cons (.vint 1) (.cons (.vstr "x") .nil))) .nil)) = true ∧
    (0 : Int) < 10 ∧ (0 : Int) - 0 < 300 ∧
    (cache_get (cache_set ⟨[], [], true, 0⟩ "k"
      (.vdict (.cons "a" (.vlist (.cons (.vint 1) (.cons (.vstr "x") .nil)))
        .nil)) 10 0).1 "k" 10).2 =
      some (.vdict (.cons "a"
        (.vlist (.cons (.vint 1) (.cons (.vstr "x") .nil))) .nil)) ∧
    (cache_get
      { (cache_set (⟨[], [], true, 0⟩ : CMState) "k"
          (.vdict (.cons "a" (.vlist (.cons (.vint 1)
            (.cons (.vstr "x") .nil))) .nil)) 10 0).1 with
        memory_cache := [] } "k" 10).2 =
      some (.vdict (.cons "a"
        (.vlist (.cons (.vint 1) (.cons (.vstr "x") .nil))) .nil)) ∧
    (cache_get (cache_set ⟨[], [], true, 0⟩ "k"
      (.vdict (.cons "a" (.vlist (.cons (.vint 1) (.cons (.vstr "x") .nil)))
        .nil)) 10 0).1 "k" 11).2 = none :=
  ⟨by decide, by decide, by decide,
   (C5_cache_roundtrip ⟨[], [], true, 0⟩ "k"
     (.vdict (.cons "a" (.vlist (.cons (.vint 1) (.cons (.vstr "x") .nil)))
       .nil)) 10 0 (by decide) (by decide) (by decide)).1 10 (by decide),
   (C5_cache_roundtrip ⟨[], [], true, 0⟩ "k"
     (.vdict (.cons "a" (.vlist (.cons (.vint 1) (.cons (.vstr "x") .nil)))
       .nil)) 10 0 (by decide) (by decide) (by decide)).2.1 10 []
     (by decide) rfl rfl,
   (C5_cache_roundtrip ⟨[], [], true, 0⟩ "k"
     (.vdict (.cons "a" (.vlist (.cons (.vint 1) (.cons (.vstr "x") .nil)))
       .nil)) 10 0 (by decide) (by decide) (by decide)).2.2 11 (by decide)⟩

/-- C6 (amended): `generate_cache_key` is deterministic and insensitive
to the insertion order of a duplicate-free options mapping: permuting
the entries of the options dict leaves the produced key unchanged.
(The claim's injectivity half is refuted separately: the three inputs
are joined with `":"` before hashing, so differing input triples can
produce the same combined string and hence the same key.) -/
theorem C6_cache_key_canonical (fh eng : String) (d1 d2 : PyDict)
    (hnd : (keysD d1).Nodup)
    (hperm : List.Perm (entriesD d1) (entriesD d2)) :
    generate_cache_key fh eng d1 = generate_cache_key fh eng d2 := by
  have hs : sortDictEntries d1 = sortDictEntries d2 :=
    sortDictEntries_perm_eq d1 d2 hnd hperm
  have hsv : sortVal (.vdict d1) = sortVal (.vdict d2) := by
    rw [sortVal, sortVal, hs]
  have hdump : jsonDumps true (.vdict d1) = jsonDumps true (.vdict d2) := by
    rw [jsonDumps, jsonDumps]
    simp [hsv]
  rw [generate_cache_key, generate_cache_key, hdump]

/-- Witness for C6 at a two-entry options mapping given in both
insertion orders. -/
theorem C6_cache_key_canonical_w :
    (keysD (PyDict.cons "b" (.vint 1)
      (PyDict.cons "a" (.vint 2) PyDict.nil))).Nodup ∧
    List.Perm
      (entriesD (PyDict.cons "b" (.vint 1)
        (PyDict.cons "a" (.vint 2) PyDict.nil)))
      (entriesD (PyDict.cons "a" (.vint 2)
        (PyDict.cons "b" (.vint 1) PyDict.nil))) ∧
    generate_cache_key "f" "e"
      (PyDict.cons "b" (.vint 1) (PyDict.cons "a" (.vint 2) PyDict.nil)) =
      generate_cache_key "f" "e"
        (PyDict.cons "a" (.vint 2) (PyDict.cons "b" (.vint 1) PyDict.nil)) :=
  ⟨by decide, by decide,
   C6_cache_key_canonical "f" "e" _ _ (by decide) (by decide)⟩

/-- Counterexample to C6 as stated: the combined string
`f"{file_hash}:{engine}:{options_str}"` does not delimit its fields, so
the distinct inputs `("a:b", "c", ∅)` and `("a", "b:c", ∅)` hash the
same combined string and collide. -/
theorem C6_cex_colon_ambiguity :
    generate_cache_key "a:b" "c" PyDict.nil =
      generate_cache_key "a" "b:c" PyDict.nil ∧
    ("a:b" : String) ≠ "a" := by
  constructor
  · rw [generate_cache_key, generate_cache_key]
    have h : ("a:b" ++ ":" ++ "c" ++ ":" ++ jsonDumps true (.vdict .nil)) =
        ("a" ++ ":" ++ "b:c" ++ ":" ++ jsonDumps true (.vdict .nil)) := by
      decide
    rw [h]
  · decide

end CacheM

